import Mathlib

/-!
Verification development for `basic_b_tree.c`, a B-tree of minimum degree
`t = 3` following the CLRS convention (every node except the root must hold
at least `t-1` keys; no node may hold more than `2*t` keys).

Modelling notes (shallow embedding of the C source):

* A C `struct bt_node` stores `count`, `isLeaf`, `keys[2*t]` and
  `children[2*t+1]`.  We model a node as a leaf flag together with the list
  of its `count` valid keys and the list of its `count+1` valid children
  (empty for leaves); `count` is the length of the key list.  Array slots at
  or beyond `count` are uninitialised or stale in C; reads from such slots
  are modelled by `Option`-valued lookup (`List.get?`), and an equality test
  against a stale slot is modelled as failing.  The one place the C code
  performs such a read is the `to_check == node->keys[index]` test of
  `remove_key`, which is the subject of claim C8.
* `free` is modelled as a no-op on the value; `malloc` failure is out of
  scope (the C code only prints a diagnostic).
* The C functions mutate nodes in place through exclusively owned pointers;
  the model rebuilds the value bottom-up.  In `split_node`, when the median
  of the full child is inserted into the parent at a position different from
  the child's own index (possible only on trees already corrupted by the
  mis-routing bug of `split_node`), the C code's pointer rewiring can leak
  the original child or alias another child; the model returns the node
  object that `split_node` returns together with the parent slot that holds
  it (`none` when the object is no longer linked into the parent), which
  reproduces the C heap behaviour up to that aliasing.
* Recursive descents are written with an explicit fuel argument; the
  public wrappers supply `height` of the tree plus a margin, which is shown
  sufficient on well-formed trees.  Running out of fuel returns the
  not-found/unchanged default.
-/

def t : Nat := 3

inductive BTNode where
  | node (leaf : Bool) (keys : List Nat) (children : List BTNode)

namespace BTNode

def isLeaf : BTNode → Bool
  | node l _ _ => l

def keys : BTNode → List Nat
  | node _ ks _ => ks

def children : BTNode → List BTNode
  | node _ _ cs => cs

/-- `count` field of the C struct: the number of valid keys. -/
def count (n : BTNode) : Nat := n.keys.length

/-- The node used when the model reads a child slot that holds no valid
child (the C code would read a stale pointer there). -/
def deadNode : BTNode := node true [] []

/-- `n->children[i]`. -/
def child (n : BTNode) (i : Nat) : BTNode := n.children.getD i deadNode

/-- `n->keys[i]` as an `Option`: `none` models a read at or beyond `count`. -/
def keyAt (n : BTNode) (i : Nat) : Option Nat := n.keys.get? i

/-- In-place update of child slot `i` (pointer-graph update in C). -/
def withChild (n : BTNode) (i : Nat) (c : BTNode) : BTNode :=
  node n.isLeaf n.keys (n.children.set i c)

/-- In-place update of key slot `i`. -/
def setKey (n : BTNode) (i : Nat) (v : Nat) : BTNode :=
  node n.isLeaf (n.keys.set i v) n.children

end BTNode

open BTNode

mutual

/-- Height of a node: 1 for a leaf, one more than the tallest child
otherwise.  Drives the fuel of the recursive descents. -/
def height : BTNode → Nat
  | .node _ _ cs => heightKids cs + 1

/-- Height of the tallest node of a list. -/
def heightKids : List BTNode → Nat
  | [] => 0
  | c :: cs => max (height c) (heightKids cs)

end

mutual

/-- Number of nodes of the tree. -/
def nodesCount : BTNode → Nat
  | .node _ _ cs => nodesCountKids cs + 1

/-- Total node count of a list of trees. -/
def nodesCountKids : List BTNode → Nat
  | [] => 0
  | c :: cs => nodesCount c + nodesCountKids cs

end

/-- `create_b_tree`: an empty leaf root. -/
def create_b_tree : BTNode := .node true [] []

/-! ## Search (`check_key`) -/

/-- The scan loop of `check_key`: walk the keys while `to_check >= key`,
reporting an equality hit, otherwise the index where the loop stopped. -/
def scanKeys : List Nat → Nat → Bool × Nat
  | [], _ => (false, 0)
  | k :: rest, c =>
    if c ≥ k then
      if c = k then (true, 0)
      else
        let r := scanKeys rest c
        (r.1, r.2 + 1)
    else (false, 0)

def checkKeyFuel : Nat → BTNode → Nat → Bool
  | 0, _, _ => false
  | fuel+1, n, c =>
    let r := scanKeys n.keys c
    if r.1 then true
    else if n.isLeaf then false
    else checkKeyFuel fuel (n.child r.2) c

/-- `check_key`: membership search from the root. -/
def check_key (head : BTNode) (to_check : Nat) : Bool :=
  checkKeyFuel (height head) head to_check

/-! ## Insertion -/

/-- `find_position`: index of the first key strictly greater than `to_add`,
or `count` when there is none. -/
def findPositionKeys : List Nat → Nat → Nat
  | [], _ => 0
  | k :: rest, to_add => if to_add < k then 0 else findPositionKeys rest to_add + 1

def find_position (n : BTNode) (to_add : Nat) : Nat :=
  findPositionKeys n.keys to_add

/-- `insert_in_leaf`: place `to_add` at `find_position`, shifting the
following keys right by one (`shift_over`). -/
def insert_in_leaf (leaf : BTNode) (to_add : Nat) : BTNode :=
  let index := find_position leaf to_add
  .node leaf.isLeaf (leaf.keys.take index ++ to_add :: leaf.keys.drop index)
    leaf.children

/-- `insert_in_internal`: like `insert_in_leaf` but also shifts the child
pointers up from slot `index+1`; slot `index+1` temporarily duplicates slot
`index` until the caller overwrites it. -/
def insert_in_internal (n : BTNode) (key : Nat) : BTNode :=
  let index := find_position n key
  .node n.isLeaf (n.keys.take index ++ key :: n.keys.drop index)
    (n.children.take (index+1) ++ n.children.drop index)

/-- `split_node` (with `create_sibling` and `copy` inlined): split the full
child `parent->children[index]`, promote its median key into the parent,
attach the new sibling at slot `index+1`, and return the node the insertion
continues into.  Returns the updated parent, the continuation node object,
and the parent slot holding that object (`none` when the C pointer rewiring
left the object unlinked, possible only when the median's insertion position
in the parent differs from `index`). -/
def split_node (parent : BTNode) (index : Nat) (to_add : Nat) :
    BTNode × BTNode × Option Nat :=
  let full := parent.child index
  let median := full.keys.getD t 0
  let p := find_position parent median
  let parent1 := insert_in_internal parent median
  let new_child : BTNode :=
    .node full.isLeaf (full.keys.drop (t+1))
      (if full.isLeaf then [] else full.children.drop (t+1))
  let full2 : BTNode :=
    .node full.isLeaf (full.keys.take t)
      (if full.isLeaf then [] else full.children.take (t+1))
  let q := if index ≤ p then index else index + 1
  let parent2 : BTNode :=
    .node parent1.isLeaf parent1.keys
      ((parent1.children.set q full2).set (index+1) new_child)
  if to_add < new_child.keys.getD 0 0 then
    (parent2, full2, if index ≤ p then some index else none)
  else
    (parent2, new_child, some (index+1))

/-- `find_and_insert_key`: recursive descent; splits a full child before
descending into it. -/
def find_and_insert_key : Nat → BTNode → Nat → BTNode
  | 0, n, _ => n
  | fuel+1, n, to_add =>
    if n.isLeaf then insert_in_leaf n to_add
    else
      let index := find_position n to_add
      let c := n.child index
      if c.count = 2*t then
        let r := split_node n index to_add
        let c2 := find_and_insert_key fuel r.2.1 to_add
        match r.2.2 with
        | some slot => r.1.withChild slot c2
        | none => r.1
      else
        n.withChild index (find_and_insert_key fuel c to_add)

/-- `add_key`: split a full root under a fresh empty root first, then run
the recursive insertion. -/
def add_key (head : BTNode) (to_add : Nat) : BTNode :=
  if head.count = 2*t then
    let new_head : BTNode := .node false [] [head]
    let r := split_node new_head 0 to_add
    let c2 := find_and_insert_key (height head + 1) r.2.1 to_add
    match r.2.2 with
    | some slot => r.1.withChild slot c2
    | none => r.1
  else
    find_and_insert_key (height head + 1) head to_add

/-! ## Deletion -/

/-- The scan loop of `remove_key`: first index whose key is `≥ to_check`,
or `count`. -/
def lowerIndex : List Nat → Nat → Nat
  | [], _ => 0
  | k :: rest, c => if c > k then lowerIndex rest c + 1 else 0

/-- `remove_from_leaf`: delete the key at `index` by shifting left. -/
def remove_from_leaf (leaf : BTNode) (index : Nat) : BTNode :=
  .node leaf.isLeaf (leaf.keys.take index ++ leaf.keys.drop (index+1))
    leaf.children

/-- `get_previous_key`: last key slot of the rightmost descendant leaf. -/
def get_previous_key : Nat → BTNode → Nat
  | 0, _ => 0
  | fuel+1, n =>
    if n.isLeaf then n.keys.getD (n.count - 1) 0
    else get_previous_key fuel (n.child n.count)

/-- `get_next_key`: first key of the leftmost descendant leaf. -/
def get_next_key : Nat → BTNode → Nat
  | 0, _ => 0
  | fuel+1, n =>
    if n.isLeaf then n.keys.getD 0 0
    else get_next_key fuel (n.child 0)

/-- `steal_key_left`: move the parent separator down into `children[index]`
and the left sibling's last key up into the parent (plus the sibling's last
child pointer).  NOTE: in the C source this function is never executed from
`ensure_enough_keys`, because its call there is the dangling branch of a
body-less `if(child == NULL)`. -/
def steal_key_left (parent : BTNode) (index : Nat) : BTNode :=
  if index ≠ 0 then
    let c := parent.child index
    let ls := parent.child (index-1)
    if ls.count ≥ t then
      let c2 : BTNode :=
        .node c.isLeaf (parent.keys.getD (index-1) 0 :: c.keys)
          (if c.isLeaf then [] else ls.child ls.count :: c.children)
      let ls2 : BTNode :=
        .node ls.isLeaf ls.keys.dropLast
          (if ls.isLeaf then [] else ls.children.take ls.count)
      ((parent.setKey (index-1) (ls.keys.getD (ls.count-1) 0)).withChild
          index c2).withChild (index-1) ls2
    else parent
  else parent

/-- `steal_key_right`: move the parent separator into `children[index]` and
the right sibling's first key up into the parent (plus the sibling's first
child pointer). -/
def steal_key_right (parent : BTNode) (index : Nat) : BTNode :=
  if index ≠ parent.count then
    let c := parent.child index
    let rs := parent.child (index+1)
    if rs.count ≥ t then
      let c2 : BTNode :=
        .node c.isLeaf (c.keys ++ [parent.keys.getD index 0])
          (if c.isLeaf then [] else c.children ++ [rs.child 0])
      let rs2 : BTNode :=
        .node rs.isLeaf (rs.keys.drop 1)
          (if rs.isLeaf then [] else rs.children.drop 1)
      ((parent.setKey index (rs.keys.getD 0 0)).withChild index c2).withChild
        (index+1) rs2
    else parent
  else parent

/-- `consolidate`: merge `children[index]` with a neighbour and the
separating parent key (right neighbour normally; left neighbour when
`index == parent->count`).  Returns the updated parent, the index now
holding the merged node, and whether the parent's key count reached zero,
in which case the C code reassigns `*ref_head` to `parent->children[0]`
and frees the parent. -/
def consolidate (parent : BTNode) (index : Nat) : BTNode × Nat × Bool :=
  if index ≠ parent.count then
    let left := parent.child index
    let right := parent.child (index+1)
    let merged : BTNode :=
      .node left.isLeaf (left.keys ++ parent.keys.getD index 0 :: right.keys)
        (if left.isLeaf then [] else left.children ++ right.children)
    let p2 : BTNode :=
      .node parent.isLeaf (parent.keys.take index ++ parent.keys.drop (index+1))
        ((parent.children.take index ++ parent.children.drop (index+1)).set
          index merged)
    (p2, index, p2.count = 0)
  else
    let left := parent.child (index-1)
    let right := parent.child index
    let merged : BTNode :=
      .node left.isLeaf
        (left.keys ++ parent.keys.getD (index-1) 0 :: right.keys)
        (if left.isLeaf then [] else left.children ++ right.children)
    let p2 : BTNode :=
      .node parent.isLeaf parent.keys.dropLast
        ((parent.children.take index).set (index-1) merged)
    (p2, index - 1, p2.count = 0)

/-- `ensure_enough_keys`: bring `children[index]` up to at least `t` keys
before descending.  Faithful to the compiled C code: the `steal_key_left`
call is skipped (dead code behind the dangling `if(child == NULL)`), so only
`steal_key_right` and `consolidate` can run. -/
def ensure_enough_keys (parent : BTNode) (index : Nat) :
    BTNode × Nat × Bool :=
  let p1 := if (parent.child index).count < t then steal_key_right parent index
            else parent
  if (p1.child index).count < t then consolidate p1 index
  else (p1, index, false)

/-- `remove_key`: recursive deletion.  Returns whether the key was found,
the updated node, and — modelling the `*ref_head` writes performed by
`consolidate` when the key count of the node reaches zero — the final value
of the node most recently written to the tree handle during this call
(`none` when no such write happened). -/
def remove_key : Nat → BTNode → Nat → Bool × BTNode × Option BTNode
  | 0, n, _ => (false, n, none)
  | fuel+1, n, to_check =>
    let index := lowerIndex n.keys to_check
    if n.isLeaf then
      if n.keyAt index = some to_check then
        (true, remove_from_leaf n index, none)
      else (false, n, none)
    else
      if n.keyAt index = some to_check then
        if (n.child index).count ≥ t then
          let lc := n.child index
          let r := get_previous_key (height lc) lc
          let res := remove_key fuel lc r
          (res.1, (n.setKey index r).withChild index res.2.1, res.2.2)
        else if (n.child (index+1)).count ≥ t then
          let rc := n.child (index+1)
          let r := get_next_key (height rc) rc
          let res := remove_key fuel rc r
          (res.1, (n.setKey index r).withChild (index+1) res.2.1, res.2.2)
        else
          let c := consolidate n index
          let tgt := c.1.child c.2.1
          let res := remove_key fuel tgt to_check
          (res.1, c.1.withChild c.2.1 res.2.1,
            match res.2.2 with
            | some x => some x
            | none => if c.2.2 then some res.2.1 else none)
      else
        let e := ensure_enough_keys n index
        let tgt := e.1.child e.2.1
        let res := remove_key fuel tgt to_check
        (res.1, e.1.withChild e.2.1 res.2.1,
          match res.2.2 with
          | some x => some x
          | none => if e.2.2 then some res.2.1 else none)

/-- Top-level delete: run `remove_key` from the root; the tree handle ends
up at the node last written to `*ref_head`, or at the (mutated) root when no
root collapse happened. -/
def delete_key (head : BTNode) (to_check : Nat) : Bool × BTNode :=
  let res := remove_key (height head + 1) head to_check
  (res.1, match res.2.2 with
          | some x => x
          | none => res.2.1)

/-! ## Traversal and operation sequences -/

mutual

/-- In-order traversal: `children[0], keys[0], children[1], keys[1], ...`
(the order `print_tree` visits, and the order of §8's sorted invariant). -/
def inorder : BTNode → List Nat
  | .node true ks _ => ks
  | .node false ks cs => inorderZip cs ks

/-- Interleave children and keys, starting and ending with a child. -/
def inorderZip : List BTNode → List Nat → List Nat
  | [], _ => []
  | c :: _, [] => inorder c
  | c :: cs, k :: ks => inorder c ++ k :: inorderZip cs ks

end

/-- The part of an interleaved traversal that follows the first child:
key, child, key, child, ... -/
def inorderTail (cs : List BTNode) : List Nat → List Nat
  | [] => []
  | k :: ks => k :: inorderZip cs ks

/-- An operation fed to the tree: insert or delete of a key. -/
inductive Op where
  | ins (k : Nat)
  | del (k : Nat)

/-- Run a list of operations from a starting tree. -/
def runOps (start : BTNode) : List Op → BTNode
  | [] => start
  | .ins k :: rest => runOps (add_key start k) rest
  | .del k :: rest => runOps (delete_key start k).2 rest

/-- The multiset ledger of §8's multiset correspondence: every insert adds
one copy; every delete that returned true removes one copy. -/
def runLedger (start : BTNode) (ms : Multiset Nat) : List Op → Multiset Nat
  | [] => ms
  | .ins k :: rest => runLedger (add_key start k) (k ::ₘ ms) rest
  | .del k :: rest =>
    let r := delete_key start k
    runLedger r.2 (if r.1 then ms.erase k else ms) rest

/-- Trees reachable from `create_b_tree` by inserts and deletes. -/
inductive Reachable : BTNode → Prop where
  | create : Reachable create_b_tree
  | insert {tr : BTNode} (k : Nat) : Reachable tr → Reachable (add_key tr k)
  | delete {tr : BTNode} (k : Nat) : Reachable tr → Reachable (delete_key tr k).2

/-! ## Structural well-formedness

`wfStruct h n` is the structural part of the B-tree shape at height `h`:
leaves are exactly at depth `h`, every internal node has one more child than
keys, and every child (a non-root node) additionally carries at least `t-1`
keys.  No upper bound on the key count is required: the code can in fact
exceed `2*t` (claim C4), yet the lower-bound structure is preserved by every
operation. -/

mutual

def wfStruct : Nat → BTNode → Bool
  | h, .node true _ cs => cs.isEmpty && decide (h = 1)
  | h, .node false ks cs =>
    decide (cs.length = ks.length + 1) && decide (2 ≤ h) && wfKids (h-1) cs

def wfKids : Nat → List BTNode → Bool
  | _, [] => true
  | h, c :: cs => wfStruct h c && decide (t-1 ≤ c.count) && wfKids h cs

end

/-- Shape of a non-root node: structure plus the `t-1` lower bound. -/
def wfSub (h : Nat) (n : BTNode) : Bool := wfStruct h n && decide (t-1 ≤ n.count)

/-- Shape of the tree handle's node: structure, and an internal root keeps
at least one key. -/
def wfRoot (h : Nat) (n : BTNode) : Bool :=
  wfStruct h n && (n.isLeaf || decide (1 ≤ n.count))

mutual

/-- All leaves sit exactly at depth `h`. -/
def depthOk : Nat → BTNode → Bool
  | h, .node true _ _ => decide (h = 1)
  | h, .node false _ cs => decide (2 ≤ h) && depthKids (h-1) cs

def depthKids : Nat → List BTNode → Bool
  | _, [] => true
  | h, c :: cs => depthOk h c && depthKids h cs

end

/-- All leaves of the tree are at the same depth. -/
def uniformDepth (n : BTNode) : Bool := depthOk (height n) n

/-! ## Concrete scenario definitions used by the claim theorems -/

def insList (ks : List Nat) : List Op := ks.map Op.ins

/-- Six ascending inserts fill the root leaf exactly (`count = 2*t`). -/
def exFull : BTNode := runOps create_b_tree (insList [1, 2, 3, 4, 5, 6])

/-- Root leaf filled with `10..60`; the next insert splits the root. -/
def exBase : BTNode := runOps create_b_tree (insList [10, 20, 30, 40, 50, 60])

/-- `exBase` after inserting `45`: the root split promotes median `40`, and
`split_node` routes `45` by comparing with the new sibling's first key `50`
instead of the median, so `45` lands in the left child `[10,20,30,45]`,
above the separator `40`. -/
def exTree1 : BTNode := add_key exBase 45

/-- Operation sequence whose final traversal multiset disagrees with the
insert/delete ledger (claim C2). -/
def c2Ops : List Op :=
  [.ins 24, .ins 24, .ins 22, .ins 16, .ins 4, .ins 14, .ins 23,
   .ins 14, .ins 5, .ins 3, .ins 23, .del 18, .del 23]

/-- Produces a tree whose second child holds `2*t + 1` keys (claim C4): the
rightmost child underflows, `steal_key_left` is dead code, the right sibling
does not exist, so `consolidate` merges with a left sibling that holds four
keys. -/
def exTree4 : BTNode :=
  runOps create_b_tree
    (insList [1, 2, 3, 4, 5, 6, 7, 8, 9, 10, 11, 7] ++ [.del 11, .del 12])

/-- Root `[20,45]` with children `[1,2,3,4]`, `[25,30]`, `[50,60]`: the
middle child is deficient and its left sibling has a surplus key (claim C5). -/
def exTree5 : BTNode :=
  runOps create_b_tree
    (insList [1, 2, 3, 25, 30, 20, 50, 60, 40, 45, 60, 4] ++
      [.del 40, .del 60])

/-! ## Theorems -/

/-- Any tree obtained by running operations from a reachable tree is
reachable. -/
theorem reachable_runOps {tr : BTNode} (h : Reachable tr) :
    ∀ ops : List Op, Reachable (runOps tr ops)
  | [] => h
  | .ins k :: rest => reachable_runOps (h.insert k) rest
  | .del k :: rest => reachable_runOps (h.delete k) rest

/-- C1: the claim "search(k) returns true immediately after insert(k)" fails
on the code.  Filling the root with `10..60` and then inserting `45` makes
`add_key` split the root: `split_node` compares `45` with the new sibling's
first key `50` instead of the promoted median `40`, so `45` is inserted into
the left child even though `45 > 40`; the subsequent `check_key` descends
right of the separator `40` and misses it.  `45` is in the tree's key
sequence, yet the search immediately after the insert returns false. -/
theorem search_misses_key_right_after_insert :
    inorder exTree1 = [10, 20, 30, 45, 40, 50, 60] ∧
    45 ∈ inorder exTree1 ∧ check_key exTree1 45 = false := by decide

/-- C3: the sorted invariant fails on the code: after the insert sequence
`10,20,30,40,50,60,45` the in-order traversal is `[10,20,30,45,40,50,60]`,
which is not non-decreasing (`45 > 40` at adjacent positions). -/
theorem inorder_not_sorted_after_inserts :
    ¬ (inorder exTree1).Sorted (· ≤ ·) := by decide

/-- C2: the multiset correspondence fails on the code.  After `c2Ops`
(eleven inserts, then `delete 18` and `delete 23`, both of which return
false) the traversal multiset has two copies of `22` and one of `23`, while
the insert/successful-delete ledger has one `22` and two `23`: during
`delete 23` the root separator `23` is overwritten with
`get_previous_key`'s result `22` (the *last slot* of the unsorted leaf
`[16,23,22]`, not its maximum), and the recursive removal of `22` then
misses, returning false after the overwrite already happened. -/
theorem traversal_multiset_diverges_from_ledger :
    (inorder (runOps create_b_tree c2Ops) : Multiset Nat) ≠
      runLedger create_b_tree 0 c2Ops := by decide

/-- C4: the fill invariant fails on the code.  In `exTree4` the root's
second child — a non-root node — holds `2*t + 1 = 7` keys: deleting `12`
finds the rightmost child `[9,10]` deficient, the left-borrow is dead code,
no right sibling exists, and `consolidate` merges the child with its
4-key left sibling plus the separator, producing 7 keys in one node. -/
theorem nonroot_node_exceeds_capacity :
    exTree4.isLeaf = false ∧ exTree4.count = 1 ∧
    (exTree4.child 1).count = 2*t + 1 := by decide

/-- C5: the claimed borrow-from-left-sibling-first policy never executes.
In `exTree5` the child `[25,30]` that `delete 26` descends into is
deficient and its left sibling `[1,2,3,4]` has `4 > t-1` keys, so the claim
requires borrowing from it (which would leave the root with keys `[4,45]`).
The compiled code skips `steal_key_left` (dangling `if(child == NULL)`),
finds no usable right sibling, and instead merges the child with `[50,60]`,
pulling separator `45` down: the root is left with the single key `[20]`. -/
theorem left_borrow_dead_merge_happens_instead :
    (exTree5.child 0).count = t + 1 ∧ (exTree5.child 1).count = t - 1 ∧
    lowerIndex exTree5.keys 26 = 1 ∧ exTree5.keys = [20, 45] ∧
    (delete_key exTree5 26).1 = false ∧
    (delete_key exTree5 26).2.keys = [20] ∧
    ((delete_key exTree5 26).2.child 1).keys = [25, 30, 45, 50, 60] := by
  decide

/-- C8: the claim that `remove_key`'s equality test always probes below the
key count fails.  On the full root leaf `[1,2,3,4,5,6]` (`count = 2*t`),
deleting `7` drives the scan to `index = count = 2*t`, and the test
`to_check == node->keys[index]` reads `keys[6]` — one slot past the end of
the `int keys[2*t]` array (modelled here by the `none` probe). -/
theorem remove_scan_probes_slot_at_count :
    exFull.count = 2*t ∧ lowerIndex exFull.keys 7 = 2*t ∧
    exFull.keyAt (lowerIndex exFull.keys 7) = none := by decide

/-- C6 (counterexample): deleting an absent key does *not* leave the tree
structurally and semantically unchanged.  `47` is absent from `exTree1`;
`delete_key` returns false, but on the way down it merges the deficient
child with its sibling and collapses the root: the node count drops from 3
to 1, and `check_key 45` — false before the delete — becomes true after
it. -/
theorem delete_absent_restructures_tree :
    47 ∉ inorder exTree1 ∧ (delete_key exTree1 47).1 = false ∧
    nodesCount exTree1 = 3 ∧ nodesCount (delete_key exTree1 47).2 = 1 ∧
    check_key exTree1 45 = false ∧
    check_key (delete_key exTree1 47).2 45 = true := by decide

/-! ### Basic structural lemmas -/

theorem keys_node (l : Bool) (ks : List Nat) (cs : List BTNode) :
    (BTNode.node l ks cs).keys = ks := rfl

theorem children_node (l : Bool) (ks : List Nat) (cs : List BTNode) :
    (BTNode.node l ks cs).children = cs := rfl

theorem isLeaf_node (l : Bool) (ks : List Nat) (cs : List BTNode) :
    (BTNode.node l ks cs).isLeaf = l := rfl

theorem count_node (l : Bool) (ks : List Nat) (cs : List BTNode) :
    (BTNode.node l ks cs).count = ks.length := rfl

theorem node_ext (n : BTNode) : n = .node n.isLeaf n.keys n.children := by
  cases n; rfl

/-- `wfKids` is the pointwise conjunction of `wfSub` over the list. -/
theorem wfKids_iff (h : Nat) (cs : List BTNode) :
    wfKids h cs = true ↔ ∀ c ∈ cs, wfSub h c = true := by
  induction cs with
  | nil => simp [wfKids]
  | cons c cs ih =>
    simp only [wfKids, Bool.and_eq_true, ih, List.mem_cons, wfSub,
      decide_eq_true_eq]
    constructor
    · rintro ⟨⟨h1, h2⟩, h3⟩ x hx
      rcases hx with rfl | hx
      · simp [h1, h2]
      · exact h3 x hx
    · intro hall
      have hc := hall c (Or.inl rfl)
      simp only [Bool.and_eq_true, decide_eq_true_eq] at hc
      exact ⟨hc, fun x hx => hall x (Or.inr hx)⟩

theorem wfSub_def (h : Nat) (n : BTNode) :
    wfSub h n = true ↔ wfStruct h n = true ∧ t-1 ≤ n.count := by
  simp [wfSub]

theorem wfRoot_def (h : Nat) (n : BTNode) :
    wfRoot h n = true ↔
      wfStruct h n = true ∧ (n.isLeaf = true ∨ 1 ≤ n.count) := by
  simp [wfRoot]

/-- Unfolded form of `wfStruct` at a leaf. -/
theorem wfStruct_leaf (h : Nat) (ks : List Nat) (cs : List BTNode) :
    wfStruct h (.node true ks cs) = true ↔ cs = [] ∧ h = 1 := by
  simp [wfStruct, List.isEmpty_iff]

/-- Unfolded form of `wfStruct` at an internal node. -/
theorem wfStruct_internal (h : Nat) (ks : List Nat) (cs : List BTNode) :
    wfStruct h (.node false ks cs) = true ↔
      cs.length = ks.length + 1 ∧ 2 ≤ h ∧ wfKids (h-1) cs = true := by
  simp [wfStruct, and_assoc]

/-- On a list of equal-height nonempty children, `heightKids` is that height. -/
theorem heightKids_const (h : Nat) (cs : List BTNode) (hne : cs ≠ [])
    (hall : ∀ c ∈ cs, height c = h) : heightKids cs = h := by
  induction cs with
  | nil => exact absurd rfl hne
  | cons c cs ih =>
    have hc : height c = h := hall c (List.mem_cons_self _ _)
    cases cs with
    | nil => simp [heightKids, hc]
    | cons d ds =>
      have h2 : heightKids (d :: ds) = h :=
        ih (by simp) fun x hx => hall x (List.mem_cons_of_mem _ hx)
      have h3 : heightKids (c :: d :: ds) = max (height c) (heightKids (d :: ds)) := rfl
      rw [h3, hc, h2, Nat.max_self]

/-- A structurally well-formed node of parameter `h` has height `h`. -/
theorem height_of_wfStruct : ∀ (h : Nat) (n : BTNode),
    wfStruct h n = true → height n = h := by
  intro h
  induction h using Nat.strong_induction_on with
  | _ h ih =>
    intro n hw
    cases n with
    | node l ks cs =>
      cases l with
      | true =>
        obtain ⟨rfl, rfl⟩ := (wfStruct_leaf _ _ _).mp hw
        simp [height, heightKids]
      | false =>
        obtain ⟨hlen, hh, hkids⟩ := (wfStruct_internal _ _ _).mp hw
        have hne : cs ≠ [] := by
          intro hcs; rw [hcs] at hlen; simp at hlen
        have hall : ∀ c ∈ cs, height c = h - 1 := by
          intro c hc
          have := ((wfKids_iff _ _).mp hkids c hc)
          have hws : wfStruct (h-1) c = true := ((wfSub_def _ _).mp this).1
          exact ih (h-1) (by omega) c hws
        have : heightKids cs = h - 1 := heightKids_const _ _ hne hall
        simp only [height, this]
        omega

/-- Structural well-formedness forces uniform leaf depth. -/
theorem depthOk_of_wfStruct : ∀ (h : Nat) (n : BTNode),
    wfStruct h n = true → depthOk h n = true := by
  intro h
  induction h using Nat.strong_induction_on with
  | _ h ih =>
    intro n hw
    cases n with
    | node l ks cs =>
      cases l with
      | true =>
        obtain ⟨rfl, rfl⟩ := (wfStruct_leaf _ _ _).mp hw
        simp [depthOk]
      | false =>
        obtain ⟨hlen, hh, hkids⟩ := (wfStruct_internal _ _ _).mp hw
        have : ∀ cs', wfKids (h-1) cs' = true → depthKids (h-1) cs' = true := by
          intro cs' hcs'
          induction cs' with
          | nil => simp [depthKids]
          | cons c cs'' ihc =>
            rw [wfKids_iff] at hcs'
            have hc : wfStruct (h-1) c = true :=
              ((wfSub_def _ _).mp (hcs' c (List.mem_cons_self _ _))).1
            have hrest : depthKids (h-1) cs'' = true := by
              apply ihc
              rw [wfKids_iff]
              exact fun x hx => hcs' x (List.mem_cons_of_mem _ hx)
            simp [depthKids, ih (h-1) (by omega) c hc, hrest]
        simp [depthOk, hh, this cs hkids]

/-! ### Traversal decomposition lemmas -/

theorem inorderZip_cons (c : BTNode) (cs : List BTNode) (ks : List Nat) :
    inorderZip (c :: cs) ks = inorder c ++ inorderTail cs ks := by
  cases ks <;> simp [inorderZip, inorderTail]

/-- Every key slot of an internal node appears in the interleaving. -/
theorem mem_inorderZip_of_mem_keys :
    ∀ (ks : List Nat) (cs : List BTNode) (k : Nat),
      cs.length = ks.length + 1 → k ∈ ks → k ∈ inorderZip cs ks := by
  intro ks
  induction ks with
  | nil => intro cs k _ hk; simp at hk
  | cons k0 ks' ih =>
    intro cs k hlen hk
    cases cs with
    | nil => simp at hlen
    | cons c0 cs' =>
      rw [show inorderZip (c0 :: cs') (k0 :: ks') =
        inorder c0 ++ k0 :: inorderZip cs' ks' from rfl]
      rcases List.mem_cons.mp hk with rfl | hk'
      · simp
      · have := ih cs' k (by simpa using hlen) hk'
        simp [this]

/-- Decompose the interleaving around one child slot, with the congruence
for replacing that slot (the model of mutating `children[i]` in place). -/
theorem inorderZip_single : ∀ (i : Nat) (cs : List BTNode) (ks : List Nat),
    cs.length = ks.length + 1 → i < cs.length →
    ∃ pre suf,
      inorderZip cs ks = pre ++ inorder (cs.getD i deadNode) ++ suf ∧
      ∀ c, inorderZip (cs.set i c) ks = pre ++ inorder c ++ suf := by
  intro i
  induction i with
  | zero =>
    intro cs ks _ hi
    cases cs with
    | nil => simp at hi
    | cons c0 cs' =>
      exact ⟨[], inorderTail cs' ks, by simp [inorderZip_cons],
        fun c => by simp [inorderZip_cons]⟩
  | succ i ih =>
    intro cs ks hlen hi
    cases cs with
    | nil => simp at hi
    | cons c0 cs' =>
      cases ks with
      | nil =>
        have : cs' = [] := by simpa using hlen
        subst this
        simp at hi
      | cons k0 ks' =>
        obtain ⟨pre, suf, h1, h2⟩ := ih cs' ks' (by simpa using hlen)
          (by simpa using hi)
        refine ⟨inorder c0 ++ k0 :: pre, suf, ?_, ?_⟩
        · rw [show inorderZip (c0 :: cs') (k0 :: ks') =
            inorder c0 ++ k0 :: inorderZip cs' ks' from rfl, h1]
          simp
        · intro c
          rw [show (c0 :: cs').set (i+1) c = c0 :: cs'.set i c from rfl,
            show inorderZip (c0 :: cs'.set i c) (k0 :: ks') =
              inorder c0 ++ k0 :: inorderZip (cs'.set i c) ks' from rfl, h2]
          simp

/-- Decompose the interleaving around two adjacent child slots and their
separating key, with congruences both for replacing the triple in place
(`steal_key_right`) and for fusing it into a single child (`consolidate`). -/
theorem inorderZip_pair : ∀ (i : Nat) (cs : List BTNode) (ks : List Nat),
    cs.length = ks.length + 1 → i + 1 < cs.length →
    ∃ pre suf,
      inorderZip cs ks = pre ++ inorder (cs.getD i deadNode) ++
        ks.getD i 0 :: inorder (cs.getD (i+1) deadNode) ++ suf ∧
      (∀ a k b, inorderZip ((cs.set i a).set (i+1) b) (ks.set i k) =
        pre ++ inorder a ++ k :: inorder b ++ suf) ∧
      (∀ m, inorderZip (cs.take i ++ m :: cs.drop (i+2))
          (ks.take i ++ ks.drop (i+1)) = pre ++ inorder m ++ suf) := by
  intro i
  induction i with
  | zero =>
    intro cs ks hlen hi
    cases cs with
    | nil => simp at hi
    | cons c0 cs1 =>
      cases cs1 with
      | nil => simp at hi
      | cons c1 cs2 =>
        cases ks with
        | nil => simp at hlen
        | cons k0 ks' =>
          refine ⟨[], inorderTail cs2 ks', ?_, ?_, ?_⟩
          · rw [show inorderZip (c0 :: c1 :: cs2) (k0 :: ks') =
              inorder c0 ++ k0 :: inorderZip (c1 :: cs2) ks' from rfl,
              inorderZip_cons]
            simp
          · intro a k b
            rw [show ((c0 :: c1 :: cs2).set 0 a).set 1 b = a :: b :: cs2
                from rfl,
              show (k0 :: ks').set 0 k = k :: ks' from rfl,
              show inorderZip (a :: b :: cs2) (k :: ks') =
                inorder a ++ k :: inorderZip (b :: cs2) ks' from rfl,
              inorderZip_cons]
            simp
          · intro m
            rw [show (c0 :: c1 :: cs2).take 0 ++ m :: (c0 :: c1 :: cs2).drop 2 =
                m :: cs2 from rfl,
              show (k0 :: ks').take 0 ++ (k0 :: ks').drop 1 = ks' from rfl,
              inorderZip_cons]
            simp
  | succ i ih =>
    intro cs ks hlen hi
    cases cs with
    | nil => simp at hi
    | cons c0 cs' =>
      cases ks with
      | nil =>
        have : cs' = [] := by simpa using hlen
        subst this
        simp at hi
      | cons k0 ks' =>
        obtain ⟨pre, suf, h1, h2, h3⟩ := ih cs' ks' (by simpa using hlen)
          (by simpa using hi)
        refine ⟨inorder c0 ++ k0 :: pre, suf, ?_, ?_, ?_⟩
        · rw [show inorderZip (c0 :: cs') (k0 :: ks') =
            inorder c0 ++ k0 :: inorderZip cs' ks' from rfl, h1]
          simp
        · intro a k b
          rw [show ((c0 :: cs').set (i+1) a).set (i+2) b =
              c0 :: ((cs'.set i a).set (i+1) b) from rfl,
            show (k0 :: ks').set (i+1) k = k0 :: ks'.set i k from rfl,
            show inorderZip (c0 :: (cs'.set i a).set (i+1) b) (k0 :: ks'.set i k) =
              inorder c0 ++ k0 :: inorderZip ((cs'.set i a).set (i+1) b)
                (ks'.set i k) from rfl, h2 a k b]
          simp
        · intro m
          rw [show (c0 :: cs').take (i+1) ++ m :: (c0 :: cs').drop (i+3) =
              c0 :: (cs'.take i ++ m :: cs'.drop (i+2)) from rfl,
            show (k0 :: ks').take (i+1) ++ (k0 :: ks').drop (i+2) =
              k0 :: (ks'.take i ++ ks'.drop (i+1)) from rfl,
            show inorderZip (c0 :: (cs'.take i ++ m :: cs'.drop (i+2)))
                (k0 :: (ks'.take i ++ ks'.drop (i+1))) =
              inorder c0 ++ k0 :: inorderZip (cs'.take i ++ m :: cs'.drop (i+2))
                (ks'.take i ++ ks'.drop (i+1)) from rfl, h3 m]
          simp

/-! ### Small list utilities -/

theorem getD_set_self {cs : List BTNode} {i : Nat} (c : BTNode)
    (hi : i < cs.length) : (cs.set i c).getD i deadNode = c := by
  simp [List.getD_eq_getElem?_getD, List.getElem?_set, hi]

theorem getD_set_ne {cs : List BTNode} {i j : Nat} (c : BTNode)
    (hij : i ≠ j) : (cs.set i c).getD j deadNode = cs.getD j deadNode := by
  simp [List.getD_eq_getElem?_getD, List.getElem?_set, hij]

theorem getD_mem {cs : List BTNode} {i : Nat} (hi : i < cs.length) :
    cs.getD i deadNode ∈ cs := by
  rw [List.getD_eq_getElem?_getD, List.getElem?_eq_getElem hi]
  exact List.getElem_mem _

theorem get?_eq_some_getD {ks : List Nat} {i : Nat} (hi : i < ks.length) :
    ks.get? i = some (ks.getD i 0) := by
  rw [List.get?_eq_getElem?, List.getElem?_eq_getElem hi,
    List.getD_eq_getElem?_getD, List.getElem?_eq_getElem hi]
  rfl

/-- Setting a slot with a `wfSub` node preserves `wfKids`. -/
theorem wfKids_set {h : Nat} {cs : List BTNode} {i : Nat} {c : BTNode}
    (hk : wfKids h cs = true) (hc : wfSub h c = true) :
    wfKids h (cs.set i c) = true := by
  rw [wfKids_iff] at hk ⊢
  intro x hx
  rcases List.mem_or_eq_of_mem_set hx with hx' | rfl
  · exact hk x hx'
  · exact hc

/-- `wfKids` restricted to a sublist built from `take`, `drop`, append and
cons of well-formed nodes. -/
theorem wfKids_of_forall {h : Nat} {cs : List BTNode}
    (hall : ∀ c ∈ cs, wfSub h c = true) : wfKids h cs = true :=
  (wfKids_iff h cs).mpr hall

theorem wfSub_of_wfKids {h : Nat} {cs : List BTNode} {i : Nat}
    (hk : wfKids h cs = true) (hi : i < cs.length) :
    wfSub h (cs.getD i deadNode) = true :=
  (wfKids_iff h cs).mp hk _ (getD_mem hi)

/-- Gluing two interleavings with a separating key. -/
theorem inorderZip_glue : ∀ (cs1 : List BTNode) (ks1 : List Nat)
    (k : Nat) (cs2 : List BTNode) (ks2 : List Nat),
    cs1.length = ks1.length + 1 →
    inorderZip (cs1 ++ cs2) (ks1 ++ k :: ks2) =
      inorderZip cs1 ks1 ++ k :: inorderZip cs2 ks2 := by
  intro cs1
  induction cs1 with
  | nil => intro ks1 k cs2 ks2 hlen; simp at hlen
  | cons c0 cs' ih =>
    intro ks1 k cs2 ks2 hlen
    cases ks1 with
    | nil =>
      have : cs' = [] := by simpa using hlen
      subst this
      cases cs2 with
      | nil =>
        rw [show ([c0] ++ [] : List BTNode) = [c0] from rfl]
        rw [show ([] ++ k :: ks2 : List Nat) = k :: ks2 from rfl]
        rw [show inorderZip [c0] (k :: ks2) = inorder c0 ++ k :: inorderZip [] ks2
          from rfl]
        simp [inorderZip]
      | cons d ds =>
        rw [show ([c0] ++ d :: ds : List BTNode) = c0 :: d :: ds from rfl]
        rw [show ([] ++ k :: ks2 : List Nat) = k :: ks2 from rfl]
        rw [show inorderZip (c0 :: d :: ds) (k :: ks2) =
          inorder c0 ++ k :: inorderZip (d :: ds) ks2 from rfl]
        simp [inorderZip]
    | cons k0 ks' =>
      have h1 : cs'.length = ks'.length + 1 := by simpa using hlen
      rw [show (c0 :: cs') ++ cs2 = c0 :: (cs' ++ cs2) from rfl,
        show (k0 :: ks') ++ k :: ks2 = k0 :: (ks' ++ k :: ks2) from rfl,
        show inorderZip (c0 :: (cs' ++ cs2)) (k0 :: (ks' ++ k :: ks2)) =
          inorder c0 ++ k0 :: inorderZip (cs' ++ cs2) (ks' ++ k :: ks2) from rfl,
        ih ks' k cs2 ks2 h1,
        show inorderZip (c0 :: cs') (k0 :: ks') =
          inorder c0 ++ k0 :: inorderZip cs' ks' from rfl]
      simp

/-- The merged node of `consolidate` traverses as left, separator, right. -/
theorem inorder_join (h : Nat) (left right : BTNode) (k : Nat)
    (hl : wfStruct h left = true) (hr : wfStruct h right = true) :
    inorder (.node left.isLeaf (left.keys ++ k :: right.keys)
      (if left.isLeaf then [] else left.children ++ right.children)) =
      inorder left ++ k :: inorder right := by
  cases left with
  | node ll lks lcs =>
    cases right with
    | node rl rks rcs =>
      cases ll with
      | true =>
        obtain ⟨rfl, rfl⟩ := (wfStruct_leaf _ _ _).mp hl
        cases rl with
        | true =>
          obtain ⟨rfl, -⟩ := (wfStruct_leaf _ _ _).mp hr
          simp only [isLeaf_node, keys_node, children_node, if_true]
          rfl
        | false =>
          obtain ⟨-, hk, -⟩ := (wfStruct_internal _ _ _).mp hr
          omega
      | false =>
        obtain ⟨hlen, hk, -⟩ := (wfStruct_internal _ _ _).mp hl
        cases rl with
        | true =>
          obtain ⟨-, rfl⟩ := (wfStruct_leaf _ _ _).mp hr
          omega
        | false =>
          simp only [isLeaf_node, keys_node, children_node, Bool.false_eq_true,
            if_false]
          rw [show inorder (BTNode.node false (lks ++ k :: rks) (lcs ++ rcs)) =
            inorderZip (lcs ++ rcs) (lks ++ k :: rks) from rfl]
          rw [inorderZip_glue lcs lks k rcs rks (by simpa using hlen)]
          rfl

/-- The merged node of `consolidate` is well-formed at the children's
level and holds the two key counts plus one. -/
theorem wfStruct_join (h : Nat) (left right : BTNode) (k : Nat)
    (hl : wfStruct h left = true) (hr : wfStruct h right = true) :
    wfStruct h (.node left.isLeaf (left.keys ++ k :: right.keys)
      (if left.isLeaf then [] else left.children ++ right.children)) = true ∧
    (BTNode.node left.isLeaf (left.keys ++ k :: right.keys)
      (if left.isLeaf then [] else left.children ++ right.children)).count =
      left.count + right.count + 1 := by
  cases left with
  | node ll lks lcs =>
    cases right with
    | node rl rks rcs =>
      cases ll with
      | true =>
        obtain ⟨rfl, rfl⟩ := (wfStruct_leaf _ _ _).mp hl
        cases rl with
        | true =>
          obtain ⟨rfl, -⟩ := (wfStruct_leaf _ _ _).mp hr
          refine ⟨(wfStruct_leaf _ _ _).mpr ⟨rfl, rfl⟩, ?_⟩
          simp only [BTNode.count, keys_node, List.length_append,
            List.length_cons]
          omega
        | false =>
          obtain ⟨-, hk, -⟩ := (wfStruct_internal _ _ _).mp hr
          omega
      | false =>
        obtain ⟨hlen, hk, hkl⟩ := (wfStruct_internal _ _ _).mp hl
        cases rl with
        | true =>
          obtain ⟨-, rfl⟩ := (wfStruct_leaf _ _ _).mp hr
          omega
        | false =>
          obtain ⟨hrlen, -, hkr⟩ := (wfStruct_internal _ _ _).mp hr
          simp only [isLeaf_node, keys_node, children_node, Bool.false_eq_true,
            if_false]
          constructor
          · refine (wfStruct_internal _ _ _).mpr ⟨?_, hk, ?_⟩
            · simp only [List.length_append, List.length_cons]
              omega
            · rw [wfKids_iff] at hkl hkr ⊢
              intro c hc
              rcases List.mem_append.mp hc with hc' | hc'
              · exact hkl c hc'
              · exact hkr c hc'
          · simp only [BTNode.count, keys_node, List.length_append,
              List.length_cons]
            omega

theorem set_append_cons_self (l1 : List BTNode) (m c : BTNode)
    (l2 : List BTNode) : (l1 ++ m :: l2).set l1.length c = l1 ++ c :: l2 := by
  rw [List.set_append_right _ _ (Nat.le_refl _)]
  simp

theorem getD_append_cons (l1 : List BTNode) (m : BTNode) (l2 : List BTNode) :
    (l1 ++ m :: l2).getD l1.length deadNode = m := by
  rw [List.getD_eq_getElem?_getD, List.getElem?_append_right (Nat.le_refl _)]
  simp

/-- Shifting the children over the removed slot `i+1` and then overwriting
slot `i` equals splicing the merged node in place of slots `i` and `i+1`. -/
theorem set_take_drop (cs : List BTNode) (i : Nat) (m : BTNode)
    (hi : i + 1 < cs.length) :
    (cs.take i ++ cs.drop (i+1)).set i m = cs.take i ++ m :: cs.drop (i+2) := by
  have h1 : (cs.take i).length = i := List.length_take_of_le (by omega)
  have h2 : cs.drop (i+1) = cs[i+1] :: cs.drop (i+2) :=
    List.drop_eq_getElem_cons hi
  rw [h2, List.set_append_right _ _ (by omega), h1, Nat.sub_self]
  rfl

/-- Overwriting the last slot of a `take (j+1)` keeps the first `j` and
replaces the `j`-th. -/
theorem take_set_last (cs : List BTNode) (j : Nat) (m : BTNode)
    (hj : j < cs.length) :
    (cs.take (j+1)).set j m = cs.take j ++ m :: cs.drop (cs.length) := by
  have h1 : cs.take (j+1) = cs.take j ++ [cs[j]] := by
    rw [List.take_succ]
    simp [List.getElem?_eq_getElem hj]
  have h2 : (cs.take j).length = j := List.length_take_of_le (by omega)
  rw [h1, List.drop_length, List.set_append_right _ _ (by omega), h2]
  simp

/-- The two nodes built by an applied `steal_key_right` traverse, around the
moved-up key, exactly as the original child, separator and sibling did. -/
theorem inorder_steal_seg (h : Nat) (c rs : BTNode) (sepk : Nat)
    (hc : wfStruct h c = true) (hrs : wfStruct h rs = true)
    (hcnt : 1 ≤ rs.count) :
    inorder (.node c.isLeaf (c.keys ++ [sepk])
        (if c.isLeaf then [] else c.children ++ [rs.child 0])) ++
      rs.keys.getD 0 0 ::
      inorder (.node rs.isLeaf (rs.keys.drop 1)
        (if rs.isLeaf then [] else rs.children.drop 1)) =
    inorder c ++ sepk :: inorder rs := by
  cases c with
  | node cl cks ccs =>
    cases rs with
    | node rl rks rcs =>
      cases cl with
      | true =>
        obtain ⟨rfl, rfl⟩ := (wfStruct_leaf _ _ _).mp hc
        cases rl with
        | true =>
          obtain ⟨rfl, -⟩ := (wfStruct_leaf _ _ _).mp hrs
          simp only [isLeaf_node, keys_node, children_node, if_true]
          rw [show inorder (BTNode.node true (cks ++ [sepk]) []) =
              cks ++ [sepk] from rfl,
            show inorder (BTNode.node true (rks.drop 1) []) = rks.drop 1
              from rfl,
            show inorder (BTNode.node true cks []) = cks from rfl,
            show inorder (BTNode.node true rks []) = rks from rfl]
          cases rks with
          | nil => simp [BTNode.count, keys_node] at hcnt
          | cons r0 rtl => simp
        | false =>
          obtain ⟨-, hk, -⟩ := (wfStruct_internal _ _ _).mp hrs
          omega
      | false =>
        obtain ⟨hclen, hk, -⟩ := (wfStruct_internal _ _ _).mp hc
        cases rl with
        | true =>
          obtain ⟨-, rfl⟩ := (wfStruct_leaf _ _ _).mp hrs
          omega
        | false =>
          obtain ⟨hrlen, -, -⟩ := (wfStruct_internal _ _ _).mp hrs
          simp only [isLeaf_node, keys_node, children_node, Bool.false_eq_true,
            if_false]
          cases rks with
          | nil => simp [BTNode.count, keys_node] at hcnt
          | cons rk0 rktail =>
            cases rcs with
            | nil => simp at hrlen
            | cons rc0 rtail =>
              rw [show (BTNode.node false (rk0 :: rktail) (rc0 :: rtail)).child 0 =
                  rc0 from rfl,
                show ((rk0 :: rktail) : List Nat).getD 0 0 = rk0 from rfl,
                show ((rk0 :: rktail) : List Nat).drop 1 = rktail from rfl,
                show ((rc0 :: rtail) : List BTNode).drop 1 = rtail from rfl,
                show inorder (BTNode.node false (cks ++ [sepk]) (ccs ++ [rc0])) =
                  inorderZip (ccs ++ [rc0]) (cks ++ [sepk]) from rfl,
                show (cks ++ [sepk]) = cks ++ sepk :: ([] : List Nat) from rfl,
                inorderZip_glue ccs cks sepk [rc0] [] (by simpa using hclen),
                show inorderZip [rc0] [] = inorder rc0 from rfl,
                show inorder (BTNode.node false rktail rtail) =
                  inorderZip rtail rktail from rfl,
                show inorder (BTNode.node false (rk0 :: rktail) (rc0 :: rtail)) =
                  inorder rc0 ++ rk0 :: inorderZip rtail rktail from rfl,
                show inorder (BTNode.node false cks ccs) = inorderZip ccs cks
                  from rfl]
              simp

theorem child_node (l : Bool) (ks : List Nat) (cs : List BTNode) (i : Nat) :
    (BTNode.node l ks cs).child i = cs.getD i deadNode := rfl

theorem withChild_node (l : Bool) (ks : List Nat) (cs : List BTNode) (i : Nat)
    (c : BTNode) :
    (BTNode.node l ks cs).withChild i c = .node l ks (cs.set i c) := rfl

theorem setKey_node (l : Bool) (ks : List Nat) (cs : List BTNode) (i v : Nat) :
    (BTNode.node l ks cs).setKey i v = .node l (ks.set i v) cs := rfl

theorem inorder_internal (ks : List Nat) (cs : List BTNode) :
    inorder (.node false ks cs) = inorderZip cs ks := rfl

theorem inorder_leaf (ks : List Nat) (cs : List BTNode) :
    inorder (.node true ks cs) = ks := rfl

/-- Specification of `consolidate` on a structurally well-formed internal
node: the parent loses one key and one child, the merged node sits at the
returned index with at least `2*t-1 ≥ t` keys, the in-order traversal is
unchanged, and the collapse flag fires exactly when the parent ran out of
keys. -/
theorem consolidate_spec (h : Nat) (ks : List Nat) (cs : List BTNode)
    (index : Nat) (hh : 2 ≤ h) (hlen : cs.length = ks.length + 1)
    (hkids : wfKids (h-1) cs = true) (hcnt : 1 ≤ ks.length)
    (hidx : index ≤ ks.length) :
    ∃ p2 i2 w2, consolidate (.node false ks cs) index = (p2, i2, w2) ∧
      p2.isLeaf = false ∧ p2.count + 1 = ks.length ∧
      p2.children.length = p2.count + 1 ∧ wfKids (h-1) p2.children = true ∧
      i2 < p2.children.length ∧
      t ≤ (p2.child i2).count ∧ wfStruct (h-1) (p2.child i2) = true ∧
      w2 = decide (p2.count = 0) ∧
      ∃ pre suf, inorderZip cs ks = pre ++ inorder (p2.child i2) ++ suf ∧
        ∀ c, inorder (p2.withChild i2 c) = pre ++ inorder c ++ suf := by
  have ht : t = 3 := rfl
  by_cases hif : index = ks.length
  · -- index == parent->count: the code merges with the left neighbour
    have hj : 1 ≤ index := by omega
    have hjlt : (index - 1) + 1 < cs.length := by omega
    have hjcs' : index - 1 + 1 = index := by omega
    have hwl := wfSub_of_wfKids hkids (show index - 1 < cs.length by omega)
    have hwr := wfSub_of_wfKids hkids (show index < cs.length by omega)
    obtain ⟨hwl1, hwl2⟩ := (wfSub_def _ _).mp hwl
    obtain ⟨hwr1, hwr2⟩ := (wfSub_def _ _).mp hwr
    obtain ⟨hms, hmc⟩ := wfStruct_join (h-1) (cs.getD (index-1) deadNode)
      (cs.getD index deadNode) (ks.getD (index-1) 0) hwl1 hwr1
    have hio := inorder_join (h-1) (cs.getD (index-1) deadNode)
      (cs.getD index deadNode) (ks.getD (index-1) 0) hwl1 hwr1
    obtain ⟨pre, suf, hdec, hpair, hmerge⟩ :=
      inorderZip_pair (index-1) cs ks hlen hjlt
    rw [hjcs'] at hdec hmerge
    have hne : ¬ index ≠ (BTNode.node false ks cs).count := by
      simp only [BTNode.count, keys_node]
      omega
    have hstep : consolidate (.node false ks cs) index =
        (.node false ks.dropLast
          ((cs.take index).set (index-1)
            (.node (cs.getD (index-1) deadNode).isLeaf
              ((cs.getD (index-1) deadNode).keys ++
                ks.getD (index-1) 0 :: (cs.getD index deadNode).keys)
              (if (cs.getD (index-1) deadNode).isLeaf then []
               else (cs.getD (index-1) deadNode).children ++
                 (cs.getD index deadNode).children))),
          index - 1,
          decide ((BTNode.node false ks.dropLast
            ((cs.take index).set (index-1)
              (.node (cs.getD (index-1) deadNode).isLeaf
                ((cs.getD (index-1) deadNode).keys ++
                  ks.getD (index-1) 0 :: (cs.getD index deadNode).keys)
                (if (cs.getD (index-1) deadNode).isLeaf then []
                 else (cs.getD (index-1) deadNode).children ++
                   (cs.getD index deadNode).children)))).count = 0)) := by
      unfold consolidate
      rw [if_neg hne]
      rfl
    generalize hM : BTNode.node (cs.getD (index-1) deadNode).isLeaf
        ((cs.getD (index-1) deadNode).keys ++
          ks.getD (index-1) 0 :: (cs.getD index deadNode).keys)
        (if (cs.getD (index-1) deadNode).isLeaf = true then []
         else (cs.getD (index-1) deadNode).children ++
           (cs.getD index deadNode).children) = M at hstep hms hmc hio
    have hchid : (cs.take index).set (index-1) M =
        cs.take (index-1) ++ M :: cs.drop (index-1+2) := by
      have htsl := take_set_last cs (index-1) M (by omega)
      rw [hjcs'] at htsl
      have hd1 : cs.drop cs.length = cs.drop (index - 1 + 2) := by
        have h2 : index - 1 + 2 = cs.length := by omega
        rw [h2]
      rw [htsl, hd1]
    have hkid : ks.dropLast = ks.take (index-1) ++ ks.drop index := by
      rw [hif, List.drop_length, List.append_nil, List.dropLast_eq_take]
    rw [hchid, hkid] at hstep
    have hlt : (cs.take (index-1)).length = index - 1 :=
      List.length_take_of_le (by omega)
    have hg : (cs.take (index-1) ++ M :: cs.drop (index-1+2)).getD
        (index-1) deadNode = M := by
      have := getD_append_cons (cs.take (index-1)) M (cs.drop (index-1+2))
      rw [hlt] at this
      exact this
    refine ⟨_, _, _, hstep, rfl, ?_, ?_, ?_, ?_, ?_, ?_, ?_, ?_⟩
    · simp only [BTNode.count, keys_node, List.length_append, List.length_take,
        List.length_drop]
      omega
    · simp only [BTNode.count, keys_node, children_node, List.length_append,
        List.length_take, List.length_drop, List.length_cons]
      omega
    · rw [wfKids_iff]
      intro c hc
      rcases List.mem_append.mp hc with hc' | hc'
      · exact (wfKids_iff _ _).mp hkids c (List.mem_of_mem_take hc')
      · rcases List.mem_cons.mp hc' with rfl | hc''
        · rw [wfSub_def]
          refine ⟨hms, ?_⟩
          rw [hmc]
          omega
        · exact (wfKids_iff _ _).mp hkids c (List.mem_of_mem_drop hc'')
    · simp only [children_node, List.length_append, List.length_take,
        List.length_cons]
      omega
    · rw [child_node, hg, hmc]
      simp only [BTNode.count, keys_node] at hwl2 hwr2 ⊢
      omega
    · rw [child_node, hg]
      exact hms
    · rfl
    · refine ⟨pre, suf, ?_, ?_⟩
      · rw [child_node, hg, hio, hdec]
        simp
      · intro c
        rw [withChild_node, inorder_internal]
        have hset : (cs.take (index-1) ++ M :: cs.drop (index-1+2)).set
            (index-1) c = cs.take (index-1) ++ c :: cs.drop (index-1+2) := by
          have := set_append_cons_self (cs.take (index-1)) M c
            (cs.drop (index-1+2))
          rw [hlt] at this
          exact this
        rw [hset]
        exact hmerge c
  · -- index != parent->count: the code merges with the right neighbour
    have hidx' : index < ks.length := lt_of_le_of_ne hidx hif
    have hi1 : index + 1 < cs.length := by omega
    have hwl := wfSub_of_wfKids hkids (show index < cs.length by omega)
    have hwr := wfSub_of_wfKids hkids hi1
    obtain ⟨hwl1, hwl2⟩ := (wfSub_def _ _).mp hwl
    obtain ⟨hwr1, hwr2⟩ := (wfSub_def _ _).mp hwr
    obtain ⟨hms, hmc⟩ := wfStruct_join (h-1) (cs.getD index deadNode)
      (cs.getD (index+1) deadNode) (ks.getD index 0) hwl1 hwr1
    have hio := inorder_join (h-1) (cs.getD index deadNode)
      (cs.getD (index+1) deadNode) (ks.getD index 0) hwl1 hwr1
    obtain ⟨pre, suf, hdec, hpair, hmerge⟩ :=
      inorderZip_pair index cs ks hlen hi1
    have hne : index ≠ (BTNode.node false ks cs).count := by
      simp only [BTNode.count, keys_node]
      omega
    have hstep : consolidate (.node false ks cs) index =
        (.node false (ks.take index ++ ks.drop (index+1))
          ((cs.take index ++ cs.drop (index+1)).set index
            (.node (cs.getD index deadNode).isLeaf
              ((cs.getD index deadNode).keys ++
                ks.getD index 0 :: (cs.getD (index+1) deadNode).keys)
              (if (cs.getD index deadNode).isLeaf then []
               else (cs.getD index deadNode).children ++
                 (cs.getD (index+1) deadNode).children))),
          index,
          decide ((BTNode.node false (ks.take index ++ ks.drop (index+1))
            ((cs.take index ++ cs.drop (index+1)).set index
              (.node (cs.getD index deadNode).isLeaf
                ((cs.getD index deadNode).keys ++
                  ks.getD index 0 :: (cs.getD (index+1) deadNode).keys)
                (if (cs.getD index deadNode).isLeaf then []
                 else (cs.getD index deadNode).children ++
                   (cs.getD (index+1) deadNode).children)))).count = 0)) := by
      unfold consolidate
      rw [if_pos hne]
      rfl
    generalize hM : BTNode.node (cs.getD index deadNode).isLeaf
        ((cs.getD index deadNode).keys ++
          ks.getD index 0 :: (cs.getD (index+1) deadNode).keys)
        (if (cs.getD index deadNode).isLeaf = true then []
         else (cs.getD index deadNode).children ++
           (cs.getD (index+1) deadNode).children) = M at hstep hms hmc hio
    rw [set_take_drop cs index M hi1] at hstep
    have hlt : (cs.take index).length = index :=
      List.length_take_of_le (by omega)
    have hg : (cs.take index ++ M :: cs.drop (index+2)).getD index deadNode =
        M := by
      have := getD_append_cons (cs.take index) M (cs.drop (index+2))
      rw [hlt] at this
      exact this
    refine ⟨_, _, _, hstep, rfl, ?_, ?_, ?_, ?_, ?_, ?_, ?_, ?_⟩
    · simp only [BTNode.count, keys_node, List.length_append, List.length_take,
        List.length_drop]
      omega
    · simp only [BTNode.count, keys_node, children_node, List.length_append,
        List.length_take, List.length_drop, List.length_cons]
      omega
    · rw [wfKids_iff]
      intro c hc
      rcases List.mem_append.mp hc with hc' | hc'
      · exact (wfKids_iff _ _).mp hkids c (List.mem_of_mem_take hc')
      · rcases List.mem_cons.mp hc' with rfl | hc''
        · rw [wfSub_def]
          refine ⟨hms, ?_⟩
          rw [hmc]
          omega
        · exact (wfKids_iff _ _).mp hkids c (List.mem_of_mem_drop hc'')
    · simp only [children_node, List.length_append, List.length_take,
        List.length_cons]
      omega
    · rw [child_node, hg, hmc]
      simp only [BTNode.count, keys_node] at hwl2 hwr2 ⊢
      omega
    · rw [child_node, hg]
      exact hms
    · rfl
    · refine ⟨pre, suf, ?_, ?_⟩
      · rw [child_node, hg, hio, hdec]
        simp
      · intro c
        rw [withChild_node, inorder_internal]
        have hset : (cs.take index ++ M :: cs.drop (index+2)).set index c =
            cs.take index ++ c :: cs.drop (index+2) := by
          have := set_append_cons_self (cs.take index) M c (cs.drop (index+2))
          rw [hlt] at this
          exact this
        rw [hset]
        exact hmerge c

/-- Shape of the two nodes built by an applied `steal_key_right`. -/
theorem wfStruct_steal_nodes (h : Nat) (c rs : BTNode) (sepk : Nat)
    (hc : wfStruct h c = true) (hrs : wfStruct h rs = true)
    (hcnt : 1 ≤ rs.count) :
    wfStruct h (.node c.isLeaf (c.keys ++ [sepk])
      (if c.isLeaf then [] else c.children ++ [rs.child 0])) = true ∧
    (BTNode.node c.isLeaf (c.keys ++ [sepk])
      (if c.isLeaf then [] else c.children ++ [rs.child 0])).count =
      c.count + 1 ∧
    wfStruct h (.node rs.isLeaf (rs.keys.drop 1)
      (if rs.isLeaf then [] else rs.children.drop 1)) = true ∧
    (BTNode.node rs.isLeaf (rs.keys.drop 1)
      (if rs.isLeaf then [] else rs.children.drop 1)).count =
      rs.count - 1 := by
  cases c with
  | node cl cks ccs =>
    cases rs with
    | node rl rks rcs =>
      cases cl with
      | true =>
        obtain ⟨rfl, rfl⟩ := (wfStruct_leaf _ _ _).mp hc
        cases rl with
        | true =>
          obtain ⟨rfl, -⟩ := (wfStruct_leaf _ _ _).mp hrs
          refine ⟨(wfStruct_leaf _ _ _).mpr ⟨rfl, rfl⟩, ?_,
            (wfStruct_leaf _ _ _).mpr ⟨rfl, rfl⟩, ?_⟩
          · simp [BTNode.count, keys_node]
          · simp [BTNode.count, keys_node]
        | false =>
          obtain ⟨-, hk, -⟩ := (wfStruct_internal _ _ _).mp hrs
          omega
      | false =>
        obtain ⟨hclen, hk, hkc⟩ := (wfStruct_internal _ _ _).mp hc
        cases rl with
        | true =>
          obtain ⟨-, rfl⟩ := (wfStruct_leaf _ _ _).mp hrs
          omega
        | false =>
          obtain ⟨hrlen, -, hkr⟩ := (wfStruct_internal _ _ _).mp hrs
          simp only [isLeaf_node, keys_node, children_node, Bool.false_eq_true,
            if_false, BTNode.count] at hcnt ⊢
          refine ⟨?_, ?_, ?_, ?_⟩
          · refine (wfStruct_internal _ _ _).mpr ⟨?_, hk, ?_⟩
            · simp only [List.length_append, List.length_cons, List.length_nil]
              omega
            · rw [wfKids_iff]
              intro x hx
              rcases List.mem_append.mp hx with hx' | hx'
              · exact (wfKids_iff _ _).mp hkc x hx'
              · rcases List.mem_cons.mp hx' with rfl | hx''
                · rw [child_node]
                  exact wfSub_of_wfKids hkr (by omega)
                · simp at hx''
          · simp only [List.length_append, List.length_cons, List.length_nil]
          · refine (wfStruct_internal _ _ _).mpr ⟨?_, hk, ?_⟩
            · simp only [List.length_drop]
              omega
            · rw [wfKids_iff]
              intro x hx
              exact (wfKids_iff _ _).mp hkr x (List.mem_of_mem_drop hx)
          · simp only [List.length_drop]

/-- Specification of an applied `steal_key_right`: one key moves from the
right sibling through the parent into the child, the traversal is preserved,
and the structure is intact. -/
theorem steal_right_applied (h : Nat) (ks : List Nat) (cs : List BTNode)
    (index : Nat) (hh : 2 ≤ h) (hlen : cs.length = ks.length + 1)
    (hkids : wfKids (h-1) cs = true)
    (hidx : index < ks.length)
    (hrs : t ≤ (cs.getD (index+1) deadNode).count) :
    ∃ p1, steal_key_right (.node false ks cs) index = p1 ∧
      p1.isLeaf = false ∧ p1.count = ks.length ∧
      p1.children.length = cs.length ∧ wfKids (h-1) p1.children = true ∧
      (p1.child index).count = (cs.getD index deadNode).count + 1 ∧
      wfStruct (h-1) (p1.child index) = true ∧
      ∃ pre suf, inorderZip cs ks = pre ++ inorder (p1.child index) ++ suf ∧
        ∀ c, inorder (p1.withChild index c) = pre ++ inorder c ++ suf := by
  have ht : t = 3 := rfl
  have hi1 : index + 1 < cs.length := by omega
  have hwc := wfSub_of_wfKids hkids (show index < cs.length by omega)
  have hwrs := wfSub_of_wfKids hkids hi1
  obtain ⟨hwc1, hwc2⟩ := (wfSub_def _ _).mp hwc
  obtain ⟨hwrs1, hwrs2⟩ := (wfSub_def _ _).mp hwrs
  obtain ⟨hs1, hs2, hs3, hs4⟩ := wfStruct_steal_nodes (h-1)
    (cs.getD index deadNode) (cs.getD (index+1) deadNode) (ks.getD index 0)
    hwc1 hwrs1 (by omega)
  have hseg := inorder_steal_seg (h-1) (cs.getD index deadNode)
    (cs.getD (index+1) deadNode) (ks.getD index 0) hwc1 hwrs1 (by omega)
  obtain ⟨pre, suf, hdec, hpair, -⟩ := inorderZip_pair index cs ks hlen hi1
  have hne : index ≠ (BTNode.node false ks cs).count := by
    simp only [BTNode.count, keys_node]
    omega
  have hstep : steal_key_right (.node false ks cs) index =
      .node false (ks.set index ((cs.getD (index+1) deadNode).keys.getD 0 0))
        ((cs.set index
          (.node (cs.getD index deadNode).isLeaf
            ((cs.getD index deadNode).keys ++ [ks.getD index 0])
            (if (cs.getD index deadNode).isLeaf then []
             else (cs.getD index deadNode).children ++
               [(cs.getD (index+1) deadNode).child 0]))).set (index+1)
          (.node (cs.getD (index+1) deadNode).isLeaf
            ((cs.getD (index+1) deadNode).keys.drop 1)
            (if (cs.getD (index+1) deadNode).isLeaf then []
             else (cs.getD (index+1) deadNode).children.drop 1))) := by
    unfold steal_key_right
    rw [if_pos hne, if_pos
      (show (((BTNode.node false ks cs).child (index+1)).count ≥ t) from hrs)]
    rfl
  generalize hC2 : BTNode.node (cs.getD index deadNode).isLeaf
      ((cs.getD index deadNode).keys ++ [ks.getD index 0])
      (if (cs.getD index deadNode).isLeaf = true then []
       else (cs.getD index deadNode).children ++
         [(cs.getD (index+1) deadNode).child 0]) = C2
    at hstep hs1 hs2 hseg
  generalize hR2 : BTNode.node (cs.getD (index+1) deadNode).isLeaf
      ((cs.getD (index+1) deadNode).keys.drop 1)
      (if (cs.getD (index+1) deadNode).isLeaf = true then []
       else (cs.getD (index+1) deadNode).children.drop 1) = R2
    at hstep hs3 hs4 hseg
  have hgc : ((cs.set index C2).set (index+1) R2).getD index deadNode = C2 := by
    rw [getD_set_ne _ (by omega : index + 1 ≠ index),
      getD_set_self _ (by omega)]
  refine ⟨_, hstep, rfl, ?_, ?_, ?_, ?_, ?_, ?_⟩
  · simp only [BTNode.count, keys_node, List.length_set]
  · simp only [children_node, List.length_set]
  · rw [wfKids_iff]
    intro x hx
    rcases List.mem_or_eq_of_mem_set hx with hx' | rfl
    · rcases List.mem_or_eq_of_mem_set hx' with hx'' | rfl
      · exact (wfKids_iff _ _).mp hkids x hx''
      · rw [wfSub_def]
        refine ⟨hs1, ?_⟩
        rw [hs2]
        omega
    · rw [wfSub_def]
      refine ⟨hs3, ?_⟩
      rw [hs4]
      omega
  · rw [child_node, hgc, hs2]
  · rw [child_node, hgc]
    exact hs1
  · refine ⟨pre, (cs.getD (index+1) deadNode).keys.getD 0 0 ::
      inorder R2 ++ suf, ?_, ?_⟩
    · rw [child_node, hgc, hdec]
      have hcongr := congrArg (fun l => pre ++ (l ++ suf)) hseg
      simp only [List.append_assoc, List.cons_append] at hcongr ⊢
      exact hcongr.symm
    · intro c
      rw [withChild_node, inorder_internal]
      have hsets : ((cs.set index C2).set (index+1) R2).set index c =
          (cs.set index c).set (index+1) R2 := by
        rw [List.set_comm _ _ _ (by omega : index ≠ index + 1),
          List.set_set, ← List.set_comm _ _ _ (by omega : index ≠ index + 1)]
      rw [hsets, hpair c _ R2]
      simp

/-- Specification of `ensure_enough_keys` (with its dead `steal_key_left`
call): the child at the returned index ends up with at least `t` keys, the
traversal is unchanged, the structure is intact, the parent loses at most
one key, and the collapse flag fires exactly when the parent ran out of
keys. -/
theorem ensure_spec (h : Nat) (ks : List Nat) (cs : List BTNode)
    (index : Nat) (hh : 2 ≤ h) (hlen : cs.length = ks.length + 1)
    (hkids : wfKids (h-1) cs = true) (hcnt : 1 ≤ ks.length)
    (hidx : index ≤ ks.length) :
    ∃ p1 i1 w1, ensure_enough_keys (.node false ks cs) index = (p1, i1, w1) ∧
      p1.isLeaf = false ∧ ks.length ≤ p1.count + 1 ∧ p1.count ≤ ks.length ∧
      p1.children.length = p1.count + 1 ∧ wfKids (h-1) p1.children = true ∧
      i1 < p1.children.length ∧
      t ≤ (p1.child i1).count ∧ wfStruct (h-1) (p1.child i1) = true ∧
      w1 = decide (p1.count = 0) ∧
      ∃ pre suf, inorderZip cs ks = pre ++ inorder (p1.child i1) ++ suf ∧
        ∀ c, inorder (p1.withChild i1 c) = pre ++ inorder c ++ suf := by
  have ht : t = 3 := rfl
  have hcs : index < cs.length := by omega
  by_cases hlow : (cs.getD index deadNode).count < t
  · -- the child is deficient: try the right sibling, else consolidate
    obtain ⟨hch1, hch2⟩ := (wfSub_def _ _).mp (wfSub_of_wfKids hkids hcs)
    by_cases happ : index < ks.length ∧ t ≤ (cs.getD (index+1) deadNode).count
    · -- the right sibling exists and has a surplus key: steal succeeds
      obtain ⟨hidx', hrs⟩ := happ
      obtain ⟨p1, hsteal, hp1, hp2, hp3, hp4, hp5, hp6, pre, suf, hd1, hd2⟩ :=
        steal_right_applied h ks cs index hh hlen hkids hidx' hrs
      have hnotlow : ¬ ((p1.child index).count < t) := by
        rw [hp5]
        omega
      have hstep : ensure_enough_keys (.node false ks cs) index =
          (p1, index, false) := by
        simp only [ensure_enough_keys, child_node]
        rw [if_pos hlow, hsteal, if_neg hnotlow]
      refine ⟨p1, index, false, hstep, hp1, by omega, by omega, ?_, hp4, ?_,
        ?_, hp6, ?_, pre, suf, hd1, hd2⟩
      · rw [hp3, hp2, hlen]
      · rw [hp3, hlen]
        omega
      · rw [hp5]
        omega
      · rw [hp2]
        have hne0 : ¬ (ks.length = 0) := by omega
        simp [hne0]
    · -- no usable right sibling: `steal_key_right` is a no-op, consolidate
      have hno : steal_key_right (.node false ks cs) index =
          .node false ks cs := by
        unfold steal_key_right
        by_cases hie : index = ks.length
        · rw [if_neg]
          simp only [BTNode.count, keys_node]
          omega
        · have hidx' : index < ks.length := by omega
          have hrs : ¬ t ≤ (cs.getD (index+1) deadNode).count := by
            intro hc
            exact happ ⟨hidx', hc⟩
          rw [if_pos (show index ≠ (BTNode.node false ks cs).count by
              simp only [BTNode.count, keys_node]; omega),
            if_neg (show ¬ (((BTNode.node false ks cs).child (index+1)).count
              ≥ t) from hrs)]
      obtain ⟨p2, i2, w2, hcons, hc1, hc2, hc3, hc4, hc5, hc6, hc7, hc8,
        pre, suf, hd1, hd2⟩ :=
        consolidate_spec h ks cs index hh hlen hkids hcnt hidx
      have hstep : ensure_enough_keys (.node false ks cs) index =
          (p2, i2, w2) := by
        simp only [ensure_enough_keys, child_node]
        rw [if_pos hlow, hno, child_node, if_pos hlow, hcons]
      exact ⟨p2, i2, w2, hstep, hc1, by omega, by omega, hc3, hc4, hc5, hc6,
        hc7, hc8, pre, suf, hd1, hd2⟩
  · -- the child already has at least `t` keys: nothing happens
    have hstep : ensure_enough_keys (.node false ks cs) index =
        (.node false ks cs, index, false) := by
      simp only [ensure_enough_keys, child_node]
      rw [if_neg hlow, child_node, if_neg hlow]
    obtain ⟨hch1, hch2⟩ := (wfSub_def _ _).mp (wfSub_of_wfKids hkids hcs)
    obtain ⟨pre, suf, hd1, hd2⟩ := inorderZip_single index cs ks hlen hcs
    refine ⟨_, index, false, hstep, rfl,
      by simp only [BTNode.count, keys_node]; omega,
      by simp only [BTNode.count, keys_node]; omega, ?_, hkids, ?_,
      ?_, ?_, ?_, pre, suf, ?_, ?_⟩
    · simp only [children_node, BTNode.count, keys_node]
      omega
    · simp only [children_node]
      omega
    · rw [child_node]
      omega
    · rw [child_node]
      exact hch1
    · simp only [BTNode.count, keys_node]
      have hne0 : ¬ (ks.length = 0) := by omega
      simp [hne0]
    · rw [child_node]
      exact hd1
    · intro c
      rw [withChild_node, inorder_internal]
      exact hd2 c

/-! ### Helpers for the deletion induction -/

theorem lowerIndex_le (ks : List Nat) (k : Nat) : lowerIndex ks k ≤ ks.length := by
  induction ks with
  | nil => simp [lowerIndex]
  | cons a l ih =>
    simp only [lowerIndex, List.length_cons]
    split
    · omega
    · omega

theorem wfRoot_zero (n : BTNode) : wfRoot 0 n = true → False := by
  cases n with
  | node l ks cs =>
    cases l with
    | true =>
      intro hw
      obtain ⟨hs, -⟩ := (wfRoot_def _ _).mp hw
      obtain ⟨-, h1⟩ := (wfStruct_leaf _ _ _).mp hs
      omega
    | false =>
      intro hw
      obtain ⟨hs, -⟩ := (wfRoot_def _ _).mp hw
      obtain ⟨-, h2, -⟩ := (wfStruct_internal _ _ _).mp hs
      omega

theorem wfRoot_of_wfSub (h : Nat) (c : BTNode) (hc : wfSub h c = true) :
    wfRoot h c = true := by
  obtain ⟨h1, h2⟩ := (wfSub_def _ _).mp hc
  rw [wfRoot_def]
  refine ⟨h1, ?_⟩
  have ht : t = 3 := rfl
  right
  omega

theorem wfStruct_withChild (h : Nat) (m : BTNode) (i : Nat) (c : BTNode)
    (hm : m.isLeaf = false) (hlen : m.children.length = m.count + 1)
    (hk : wfKids (h-1) m.children = true) (hh : 2 ≤ h)
    (hc : wfSub (h-1) c = true) :
    wfStruct h (m.withChild i c) = true ∧
    (m.withChild i c).count = m.count ∧
    (m.withChild i c).isLeaf = false := by
  cases m with
  | node l ks cs =>
    simp only [isLeaf_node] at hm
    subst hm
    rw [withChild_node]
    refine ⟨?_, rfl, rfl⟩
    refine (wfStruct_internal _ _ _).mpr ⟨?_, hh, ?_⟩
    · simp only [List.length_set]
      simpa only [children_node, BTNode.count, keys_node] using hlen
    · exact wfKids_set (by simpa only [children_node] using hk) hc

theorem inorder_withChild_zero (m : BTNode) (c : BTNode)
    (hm : m.isLeaf = false) (hc0 : m.count = 0)
    (hlen : m.children.length = m.count + 1) :
    inorder (m.withChild 0 c) = inorder c := by
  cases m with
  | node l ks cs =>
    simp only [isLeaf_node] at hm
    subst hm
    simp only [BTNode.count, keys_node] at hc0
    simp only [children_node, BTNode.count, keys_node, hc0] at hlen
    obtain rfl : ks = [] := List.length_eq_zero.mp hc0
    cases cs with
    | nil => simp at hlen
    | cons c0 cs' =>
      obtain rfl : cs' = [] := by simpa using hlen
      rw [withChild_node, inorder_internal]
      rfl

theorem mem_inorder_of_keyAt (n : BTNode) (i k : Nat)
    (hp : n.keyAt i = some k) (hstruct : n.isLeaf = false →
      n.children.length = n.count + 1) : k ∈ inorder n := by
  cases n with
  | node l ks cs =>
    have hk : k ∈ ks := List.get?_mem hp
    cases l with
    | true => exact hk
    | false =>
      rw [inorder_internal]
      exact mem_inorderZip_of_mem_keys ks cs k
        (by simpa only [children_node, BTNode.count, keys_node] using
          hstruct rfl) hk

/-- Master lemma for `remove_key` on structurally well-formed nodes: the
node keeps its shape and at most one key is lost; a call on a node with at
least `t` keys never writes the tree handle; a handle write only delivers a
well-formed node holding the whole traversal; and deleting an absent key
returns false and preserves the traversal. -/
theorem remove_key_master : ∀ (fuel h : Nat) (n : BTNode) (k : Nat),
    wfRoot h n = true → h ≤ fuel →
    (remove_key fuel n k).2.1.isLeaf = n.isLeaf ∧
    wfStruct h (remove_key fuel n k).2.1 = true ∧
    n.count ≤ (remove_key fuel n k).2.1.count + 1 ∧
    (remove_key fuel n k).2.1.count ≤ n.count ∧
    (t ≤ n.count → (remove_key fuel n k).2.2 = none) ∧
    (n.isLeaf = false → (remove_key fuel n k).2.2 = none → 1 ≤ n.count →
      1 ≤ (remove_key fuel n k).2.1.count) ∧
    (∀ x, (remove_key fuel n k).2.2 = some x →
      wfRoot (h-1) x = true ∧ inorder (remove_key fuel n k).2.1 = inorder x) ∧
    (k ∉ inorder n → (remove_key fuel n k).1 = false ∧
      inorder (remove_key fuel n k).2.1 = inorder n) := by
  intro fuel
  induction fuel with
  | zero =>
    intro h n k hw hf
    have h0 : h = 0 := by omega
    subst h0
    exact absurd hw (fun hw' => wfRoot_zero n hw')
  | succ fuel ih =>
    intro h n k hw hf
    have ht : t = 3 := rfl
    obtain ⟨hws, hwr⟩ := (wfRoot_def _ _).mp hw
    cases n with
    | node l ks cs =>
      cases l with
      | true =>
        obtain ⟨rfl, rfl⟩ := (wfStruct_leaf _ _ _).mp hws
        by_cases hprobe : ks.get? (lowerIndex ks k) = some k
        · have hilt : lowerIndex ks k < ks.length := by
            by_contra hge
            rw [List.get?_eq_none.mpr (by omega)] at hprobe
            simp at hprobe
          have hstep : remove_key (fuel+1) (.node true ks []) k =
              (true, .node true
                (ks.take (lowerIndex ks k) ++ ks.drop (lowerIndex ks k + 1))
                [], none) := by
            simp only [remove_key, isLeaf_node, keys_node, BTNode.keyAt,
              if_true]
            rw [if_pos hprobe]
            rfl
          rw [hstep]
          have hlt : (ks.take (lowerIndex ks k)).length = lowerIndex ks k :=
            List.length_take_of_le (by omega)
          refine ⟨rfl, (wfStruct_leaf _ _ _).mpr ⟨rfl, rfl⟩, ?_, ?_, ?_, ?_,
            ?_, ?_⟩
          · simp only [BTNode.count, keys_node, List.length_append,
              List.length_take, List.length_drop]
            omega
          · simp only [BTNode.count, keys_node, List.length_append,
              List.length_take, List.length_drop]
            omega
          · intro
            rfl
          · intro hleaf
            simp [BTNode.isLeaf] at hleaf
          · intro x hx
            simp at hx
          · intro habs
            exact absurd (List.get?_mem hprobe) habs
        · have hstep : remove_key (fuel+1) (.node true ks []) k =
              (false, .node true ks [], none) := by
            simp only [remove_key, isLeaf_node, keys_node, BTNode.keyAt,
              if_true]
            rw [if_neg hprobe]
          rw [hstep]
          refine ⟨rfl, hws, ?_, ?_, fun _ => rfl, ?_, ?_,
            fun _ => ⟨rfl, rfl⟩⟩
          · show (BTNode.node true ks []).count ≤
              (BTNode.node true ks []).count + 1
            omega
          · show (BTNode.node true ks []).count ≤ (BTNode.node true ks []).count
            omega
          · intro hleaf
            simp [BTNode.isLeaf] at hleaf
          · intro x hx
            simp at hx
      | false =>
        obtain ⟨hlen, hh, hkids⟩ := (wfStruct_internal _ _ _).mp hws
        have hcnt : 1 ≤ ks.length := by
          rcases hwr with hwr | hwr
          · simp [isLeaf_node] at hwr
          · simpa only [BTNode.count, keys_node] using hwr
        have hidx : lowerIndex ks k ≤ ks.length := lowerIndex_le ks k
        by_cases hprobe : ks.get? (lowerIndex ks k) = some k
        · -- key present at this internal node
          have hilt : lowerIndex ks k < ks.length := by
            by_contra hge
            rw [List.get?_eq_none.mpr (by omega)] at hprobe
            simp at hprobe
          have hkmem : k ∈ inorderZip cs ks :=
            mem_inorderZip_of_mem_keys ks cs k hlen (List.get?_mem hprobe)
          by_cases hb1 : (cs.getD (lowerIndex ks k) deadNode).count ≥ t
          · -- predecessor branch
            have hlc := wfSub_of_wfKids hkids
              (show lowerIndex ks k < cs.length by omega)
            obtain ⟨hlc1, hlc2⟩ := (wfSub_def _ _).mp hlc
            obtain ⟨ih1, ih2, ih3, ih4, ih5, ih6, ih7, ih8⟩ :=
              ih (h-1) (cs.getD (lowerIndex ks k) deadNode)
                (get_previous_key (height (cs.getD (lowerIndex ks k) deadNode))
                  (cs.getD (lowerIndex ks k) deadNode))
                (wfRoot_of_wfSub _ _ hlc) (by omega)
            have hwnone := ih5 hb1
            have hstep : remove_key (fuel+1) (.node false ks cs) k =
                ((remove_key fuel (cs.getD (lowerIndex ks k) deadNode)
                  (get_previous_key
                    (height (cs.getD (lowerIndex ks k) deadNode))
                    (cs.getD (lowerIndex ks k) deadNode))).1,
                 .node false
                   (ks.set (lowerIndex ks k)
                     (get_previous_key
                       (height (cs.getD (lowerIndex ks k) deadNode))
                       (cs.getD (lowerIndex ks k) deadNode)))
                   (cs.set (lowerIndex ks k)
                     (remove_key fuel (cs.getD (lowerIndex ks k) deadNode)
                       (get_previous_key
                         (height (cs.getD (lowerIndex ks k) deadNode))
                         (cs.getD (lowerIndex ks k) deadNode))).2.1),
                 (remove_key fuel (cs.getD (lowerIndex ks k) deadNode)
                   (get_previous_key
                     (height (cs.getD (lowerIndex ks k) deadNode))
                     (cs.getD (lowerIndex ks k) deadNode))).2.2) := by
              simp only [remove_key, isLeaf_node, keys_node, BTNode.keyAt,
                child_node, setKey_node, withChild_node]
              rw [if_neg (by simp : ¬ ((false : Bool) = true)),
                if_pos hprobe, if_pos hb1]
            rw [hstep]
            refine ⟨rfl, ?_, ?_, ?_, ?_, ?_, ?_, ?_⟩
            · refine (wfStruct_internal _ _ _).mpr ⟨?_, hh, ?_⟩
              · simp only [List.length_set]
                omega
              · refine wfKids_set hkids ?_
                rw [wfSub_def]
                exact ⟨ih2, by omega⟩
            · simp only [BTNode.count, keys_node, List.length_set]
              omega
            · simp only [BTNode.count, keys_node, List.length_set]
              omega
            · intro
              exact hwnone
            · intro _ _ _
              simp only [BTNode.count, keys_node, List.length_set]
              omega
            · intro x hx
              rw [hwnone] at hx
              simp at hx
            · intro habs
              exact absurd hkmem (by rwa [inorder_internal] at habs)
          · by_cases hb2 : (cs.getD (lowerIndex ks k + 1) deadNode).count ≥ t
            · -- successor branch
              have hrc := wfSub_of_wfKids hkids
                (show lowerIndex ks k + 1 < cs.length by omega)
              obtain ⟨hrc1, hrc2⟩ := (wfSub_def _ _).mp hrc
              obtain ⟨ih1, ih2, ih3, ih4, ih5, ih6, ih7, ih8⟩ :=
                ih (h-1) (cs.getD (lowerIndex ks k + 1) deadNode)
                  (get_next_key
                    (height (cs.getD (lowerIndex ks k + 1) deadNode))
                    (cs.getD (lowerIndex ks k + 1) deadNode))
                  (wfRoot_of_wfSub _ _ hrc) (by omega)
              have hwnone := ih5 hb2
              have hstep : remove_key (fuel+1) (.node false ks cs) k =
                  ((remove_key fuel (cs.getD (lowerIndex ks k + 1) deadNode)
                    (get_next_key
                      (height (cs.getD (lowerIndex ks k + 1) deadNode))
                      (cs.getD (lowerIndex ks k + 1) deadNode))).1,
                   .node false
                     (ks.set (lowerIndex ks k)
                       (get_next_key
                         (height (cs.getD (lowerIndex ks k + 1) deadNode))
                         (cs.getD (lowerIndex ks k + 1) deadNode)))
                     (cs.set (lowerIndex ks k + 1)
                       (remove_key fuel
                         (cs.getD (lowerIndex ks k + 1) deadNode)
                         (get_next_key
                           (height (cs.getD (lowerIndex ks k + 1) deadNode))
                           (cs.getD (lowerIndex ks k + 1) deadNode))).2.1),
                   (remove_key fuel (cs.getD (lowerIndex ks k + 1) deadNode)
                     (get_next_key
                       (height (cs.getD (lowerIndex ks k + 1) deadNode))
                       (cs.getD (lowerIndex ks k + 1) deadNode))).2.2) := by
                simp only [remove_key, isLeaf_node, keys_node, BTNode.keyAt,
                  child_node, setKey_node, withChild_node]
                rw [if_neg (by simp : ¬ ((false : Bool) = true)),
                  if_pos hprobe, if_neg hb1, if_pos hb2]
              rw [hstep]
              refine ⟨rfl, ?_, ?_, ?_, ?_, ?_, ?_, ?_⟩
              · refine (wfStruct_internal _ _ _).mpr ⟨?_, hh, ?_⟩
                · simp only [List.length_set]
                  omega
                · refine wfKids_set hkids ?_
                  rw [wfSub_def]
                  exact ⟨ih2, by omega⟩
              · simp only [BTNode.count, keys_node, List.length_set]
                omega
              · simp only [BTNode.count, keys_node, List.length_set]
                omega
              · intro
                exact hwnone
              · intro _ _ _
                simp only [BTNode.count, keys_node, List.length_set]
                omega
              · intro x hx
                rw [hwnone] at hx
                simp at hx
              · intro habs
                exact absurd hkmem (by rwa [inorder_internal] at habs)
            · -- merge branch
              obtain ⟨p2, i2, w2, hcons, hc1, hc2, hc3, hc4, hc5, hc6, hc7,
                hc8, pre, suf, hd1, hd2⟩ :=
                consolidate_spec h ks cs (lowerIndex ks k) hh hlen hkids hcnt
                  hidx
              obtain ⟨ih1, ih2, ih3, ih4, ih5, ih6, ih7, ih8⟩ :=
                ih (h-1) (p2.child i2) k
                  (wfRoot_of_wfSub _ _ (by rw [wfSub_def]; exact ⟨hc7, by omega⟩))
                  (by omega)
              have hwnone := ih5 hc6
              have hstep : remove_key (fuel+1) (.node false ks cs) k =
                  ((remove_key fuel (p2.child i2) k).1,
                   p2.withChild i2 (remove_key fuel (p2.child i2) k).2.1,
                   if w2 then some (remove_key fuel (p2.child i2) k).2.1
                   else none) := by
                simp only [remove_key, isLeaf_node, keys_node, BTNode.keyAt,
                  child_node]
                rw [if_neg (by simp : ¬ ((false : Bool) = true)),
                  if_pos hprobe, if_neg hb1, if_neg hb2, hcons]
                rw [hwnone]
              rw [hstep]
              obtain ⟨hwc1, hwc2, hwc3⟩ := wfStruct_withChild h p2 i2
                (remove_key fuel (p2.child i2) k).2.1 hc1 hc3 hc4 hh
                (by rw [wfSub_def]; exact ⟨ih2, by omega⟩)
              refine ⟨?_, hwc1, ?_, ?_, ?_, ?_, ?_, ?_⟩
              · rw [hwc3, isLeaf_node]
              · rw [hwc2]
                simp only [count_node]
                omega
              · rw [hwc2]
                simp only [count_node]
                omega
              · intro hcount
                simp only [count_node] at hcount
                have hne0 : ¬ (p2.count = 0) := by omega
                rw [hc8]
                simp [hne0]
              · intro _ hwn _
                by_cases hw2 : w2 = true
                · rw [hw2] at hwn
                  simp at hwn
                · rw [hwc2]
                  rw [hc8] at hw2
                  simp only [decide_eq_true_eq] at hw2
                  omega
              · intro x hx
                by_cases hw2 : w2 = true
                · rw [hw2, if_pos rfl] at hx
                  obtain rfl : (remove_key fuel (p2.child i2) k).2.1 = x := by
                    simpa using hx
                  rw [hc8] at hw2
                  simp only [decide_eq_true_eq] at hw2
                  constructor
                  · apply wfRoot_of_wfSub
                    rw [wfSub_def]
                    exact ⟨ih2, by omega⟩
                  · have hi20 : i2 = 0 := by omega
                    rw [hi20]
                    exact inorder_withChild_zero p2 _ hc1 hw2 hc3
                · rw [if_neg hw2] at hx
                  simp at hx
              · intro habs
                exact absurd hkmem (by rwa [inorder_internal] at habs)
        · -- key absent at this node: rebalance and descend
          obtain ⟨p1, i1, w1, hens, he1, he2, he3, he4, he5, he6, he7, he8,
            he9, pre, suf, hd1, hd2⟩ :=
            ensure_spec h ks cs (lowerIndex ks k) hh hlen hkids hcnt hidx
          obtain ⟨ih1, ih2, ih3, ih4, ih5, ih6, ih7, ih8⟩ :=
            ih (h-1) (p1.child i1) k
              (wfRoot_of_wfSub _ _ (by rw [wfSub_def]; exact ⟨he8, by omega⟩))
              (by omega)
          have hwnone := ih5 he7
          have hstep : remove_key (fuel+1) (.node false ks cs) k =
              ((remove_key fuel (p1.child i1) k).1,
               p1.withChild i1 (remove_key fuel (p1.child i1) k).2.1,
               if w1 then some (remove_key fuel (p1.child i1) k).2.1
               else none) := by
            simp only [remove_key, isLeaf_node, keys_node, BTNode.keyAt,
              child_node]
            rw [if_neg (by simp : ¬ ((false : Bool) = true)),
              if_neg hprobe, hens]
            rw [hwnone]
          rw [hstep]
          obtain ⟨hwc1, hwc2, hwc3⟩ := wfStruct_withChild h p1 i1
            (remove_key fuel (p1.child i1) k).2.1 he1 he4 he5 hh
            (by rw [wfSub_def]; exact ⟨ih2, by omega⟩)
          refine ⟨?_, hwc1, ?_, ?_, ?_, ?_, ?_, ?_⟩
          · rw [hwc3, isLeaf_node]
          · rw [hwc2]
            simp only [count_node]
            omega
          · rw [hwc2]
            simp only [count_node]
            omega
          · intro hcount
            simp only [count_node] at hcount
            have hne0 : ¬ (p1.count = 0) := by omega
            rw [he9]
            simp [hne0]
          · intro _ hwn _
            by_cases hw1 : w1 = true
            · rw [hw1] at hwn
              simp at hwn
            · rw [hwc2]
              rw [he9] at hw1
              simp only [decide_eq_true_eq] at hw1
              omega
          · intro x hx
            by_cases hw1 : w1 = true
            · rw [hw1, if_pos rfl] at hx
              obtain rfl : (remove_key fuel (p1.child i1) k).2.1 = x := by
                simpa using hx
              rw [he9] at hw1
              simp only [decide_eq_true_eq] at hw1
              constructor
              · apply wfRoot_of_wfSub
                rw [wfSub_def]
                exact ⟨ih2, by omega⟩
              · have hi10 : i1 = 0 := by
                  rw [he4, hw1] at he6
                  omega
                rw [hi10]
                exact inorder_withChild_zero p1 _ he1 hw1 he4
            · rw [if_neg hw1] at hx
              simp at hx
          · intro habs
            rw [inorder_internal] at habs
            rw [hd1] at habs
            have habs' : k ∉ inorder (p1.child i1) := by
              intro hk
              exact habs (by simp [hk])
            obtain ⟨hf8, hio8⟩ := ih8 habs'
            refine ⟨hf8, ?_⟩
            rw [hd2 (remove_key fuel (p1.child i1) k).2.1, hio8,
              inorder_internal, hd1]

/-- A delete keeps the tree well-formed at the same height or collapses it
by exactly one level. -/
theorem delete_key_wf (h : Nat) (n : BTNode) (k : Nat)
    (hw : wfRoot h n = true) :
    wfRoot h (delete_key n k).2 = true ∨
    wfRoot (h-1) (delete_key n k).2 = true := by
  have hht : height n = h :=
    height_of_wfStruct h n ((wfRoot_def _ _).mp hw).1
  obtain ⟨m1, m2, m3, m4, m5, m6, m7, m8⟩ :=
    remove_key_master (height n + 1) h n k hw (by omega)
  rcases hres : (remove_key (height n + 1) n k).2.2 with _ | x
  · left
    have hdel : (delete_key n k).2 = (remove_key (height n + 1) n k).2.1 := by
      simp only [delete_key, hres]
    rw [hdel, wfRoot_def]
    refine ⟨m2, ?_⟩
    rcases ((wfRoot_def _ _).mp hw).2 with hleaf | hcount
    · left
      rw [m1, hleaf]
    · by_cases hnl : n.isLeaf = true
      · left
        rw [m1, hnl]
      · right
        exact m6 (by simpa using hnl) hres hcount
  · right
    have hdel : (delete_key n k).2 = x := by
      simp only [delete_key, hres]
    rw [hdel]
    exact (m7 x hres).1

/-- Deleting an absent key returns false and preserves the in-order key
sequence (although it may restructure the tree). -/
theorem delete_key_absent (h : Nat) (n : BTNode) (k : Nat)
    (hw : wfRoot h n = true) (habs : k ∉ inorder n) :
    (delete_key n k).1 = false ∧ inorder (delete_key n k).2 = inorder n := by
  obtain ⟨m1, m2, m3, m4, m5, m6, m7, m8⟩ :=
    remove_key_master (height n + 1) h n k hw
      (by
        have := height_of_wfStruct h n ((wfRoot_def _ _).mp hw).1
        omega)
  obtain ⟨hf, hio⟩ := m8 habs
  have hfst : (delete_key n k).1 = (remove_key (height n + 1) n k).1 := by
    simp only [delete_key]
  rcases hres : (remove_key (height n + 1) n k).2.2 with _ | x
  · have hdel : (delete_key n k).2 = (remove_key (height n + 1) n k).2.1 := by
      simp only [delete_key, hres]
    rw [hfst, hdel]
    exact ⟨hf, hio⟩
  · have hdel : (delete_key n k).2 = x := by
      simp only [delete_key, hres]
    rw [hfst, hdel]
    refine ⟨hf, ?_⟩
    rw [← (m7 x hres).2]
    exact hio

/-! ### Insertion preserves the structure -/

theorem wfStruct_zero (n : BTNode) : wfStruct 0 n = true → False := by
  cases n with
  | node l ks cs =>
    cases l with
    | true =>
      intro hw
      obtain ⟨-, h1⟩ := (wfStruct_leaf _ _ _).mp hw
      omega
    | false =>
      intro hw
      obtain ⟨-, h2, -⟩ := (wfStruct_internal _ _ _).mp hw
      omega

theorem wfStruct_pos (h : Nat) (n : BTNode) (hw : wfStruct h n = true) :
    1 ≤ h := by
  cases n with
  | node l ks cs =>
    cases l with
    | true =>
      obtain ⟨-, h1⟩ := (wfStruct_leaf _ _ _).mp hw
      omega
    | false =>
      obtain ⟨-, h2, -⟩ := (wfStruct_internal _ _ _).mp hw
      omega

theorem wfStruct_of_parts (h : Nat) (m : BTNode) (hm : m.isLeaf = false)
    (hlen : m.children.length = m.count + 1)
    (hk : wfKids (h-1) m.children = true) (hh : 2 ≤ h) :
    wfStruct h m = true := by
  cases m with
  | node l ks cs =>
    simp only [isLeaf_node] at hm
    subst hm
    refine (wfStruct_internal _ _ _).mpr ⟨?_, hh, ?_⟩
    · simpa only [children_node, BTNode.count, keys_node] using hlen
    · simpa only [children_node] using hk

/-- The two halves of a split full node are well-formed with `t` and
`t-1` keys. -/
theorem wfStruct_split_parts (h : Nat) (full : BTNode)
    (hf : wfStruct h full = true) (hcount : full.count = 2*t) :
    wfStruct h (.node full.isLeaf (full.keys.take t)
      (if full.isLeaf then [] else full.children.take (t+1))) = true ∧
    (BTNode.node full.isLeaf (full.keys.take t)
      (if full.isLeaf then [] else full.children.take (t+1))).count = t ∧
    wfStruct h (.node full.isLeaf (full.keys.drop (t+1))
      (if full.isLeaf then [] else full.children.drop (t+1))) = true ∧
    (BTNode.node full.isLeaf (full.keys.drop (t+1))
      (if full.isLeaf then [] else full.children.drop (t+1))).count =
      t - 1 := by
  have ht : t = 3 := rfl
  cases full with
  | node l ks cs =>
    simp only [BTNode.count, keys_node] at hcount
    cases l with
    | true =>
      obtain ⟨rfl, rfl⟩ := (wfStruct_leaf _ _ _).mp hf
      simp only [isLeaf_node, keys_node, children_node, if_true]
      refine ⟨(wfStruct_leaf _ _ _).mpr ⟨rfl, rfl⟩, ?_,
        (wfStruct_leaf _ _ _).mpr ⟨rfl, rfl⟩, ?_⟩
      · simp only [BTNode.count, keys_node, List.length_take]
        omega
      · simp only [BTNode.count, keys_node, List.length_drop]
        omega
    | false =>
      obtain ⟨hlen, hh, hkids⟩ := (wfStruct_internal _ _ _).mp hf
      simp only [isLeaf_node, keys_node, children_node, Bool.false_eq_true,
        if_false]
      refine ⟨?_, ?_, ?_, ?_⟩
      · refine (wfStruct_internal _ _ _).mpr ⟨?_, hh, ?_⟩
        · simp only [List.length_take]
          omega
        · rw [wfKids_iff]
          intro c hc
          exact (wfKids_iff _ _).mp hkids c (List.mem_of_mem_take hc)
      · simp only [BTNode.count, keys_node, List.length_take]
        omega
      · refine (wfStruct_internal _ _ _).mpr ⟨?_, hh, ?_⟩
        · simp only [List.length_drop]
          omega
        · rw [wfKids_iff]
          intro c hc
          exact (wfKids_iff _ _).mp hkids c (List.mem_of_mem_drop hc)
      · simp only [BTNode.count, keys_node, List.length_drop]
        omega

theorem findPositionKeys_le (ks : List Nat) (v : Nat) :
    findPositionKeys ks v ≤ ks.length := by
  induction ks with
  | nil => simp [findPositionKeys]
  | cons a l ihl =>
    simp only [findPositionKeys, List.length_cons]
    split
    · omega
    · omega

/-- Specification of `split_node` on a well-formed internal parent with a
full child: the parent gains the median key and the sibling pointer, both
halves are well-formed, and the returned continuation node is one of them;
when a slot is returned it is inside the parent's child array. -/
theorem split_node_spec (h : Nat) (ks : List Nat) (cs : List BTNode)
    (index k : Nat) (hh : 2 ≤ h) (hlen : cs.length = ks.length + 1)
    (hkids : wfKids (h-1) cs = true) (hidx : index < cs.length)
    (hfull : (cs.getD index deadNode).count = 2*t) :
    ∃ p2 tgt slot, split_node (.node false ks cs) index k = (p2, tgt, slot) ∧
      p2.isLeaf = false ∧ p2.count = ks.length + 1 ∧
      p2.children.length = p2.count + 1 ∧ wfKids (h-1) p2.children = true ∧
      wfStruct (h-1) tgt = true ∧ t - 1 ≤ tgt.count ∧
      (∀ s, slot = some s → s < p2.children.length) := by
  have ht : t = 3 := rfl
  have hfw := wfSub_of_wfKids hkids hidx
  obtain ⟨hfw1, -⟩ := (wfSub_def _ _).mp hfw
  obtain ⟨hsp1, hsp2, hsp3, hsp4⟩ :=
    wfStruct_split_parts (h-1) (cs.getD index deadNode) hfw1 hfull
  have hfp := findPositionKeys_le ks ((cs.getD index deadNode).keys.getD t 0)
  by_cases hroute : k < ((cs.getD index deadNode).keys.drop (t+1)).getD 0 0
  · simp only [split_node, child_node, keys_node, children_node, isLeaf_node,
      insert_in_internal, find_position]
    rw [if_pos hroute]
    refine ⟨_, _, _, rfl, ?_, ?_, ?_, ?_, ?_, ?_, ?_⟩
    · rfl
    · simp only [count_node, List.length_append, List.length_cons,
        List.length_take, List.length_drop]
      omega
    · simp only [count_node, children_node, List.length_set,
        List.length_append, List.length_cons, List.length_take,
        List.length_drop]
      omega
    · rw [wfKids_iff]
      intro c hc
      rcases List.mem_or_eq_of_mem_set hc with hc' | rfl
      · rcases List.mem_or_eq_of_mem_set hc' with hc'' | rfl
        · rcases List.mem_append.mp hc'' with hc3 | hc3
          · exact (wfKids_iff _ _).mp hkids c (List.mem_of_mem_take hc3)
          · exact (wfKids_iff _ _).mp hkids c (List.mem_of_mem_drop hc3)
        · rw [wfSub_def]
          refine ⟨hsp1, ?_⟩
          rw [hsp2]
          omega
      · rw [wfSub_def]
        refine ⟨hsp3, ?_⟩
        rw [hsp4]
    · exact hsp1
    · rw [hsp2]
      omega
    · intro s hs
      by_cases hqp : index ≤
          findPositionKeys ks ((cs.getD index deadNode).keys.getD t 0)
      · rw [if_pos hqp] at hs
        obtain rfl : index = s := by simpa using hs
        simp only [children_node, List.length_set, List.length_append,
          List.length_take, List.length_drop]
        omega
      · rw [if_neg hqp] at hs
        simp at hs
  · simp only [split_node, child_node, keys_node, children_node, isLeaf_node,
      insert_in_internal, find_position]
    rw [if_neg hroute]
    refine ⟨_, _, _, rfl, ?_, ?_, ?_, ?_, ?_, ?_, ?_⟩
    · rfl
    · simp only [count_node, List.length_append, List.length_cons,
        List.length_take, List.length_drop]
      omega
    · simp only [count_node, children_node, List.length_set,
        List.length_append, List.length_cons, List.length_take,
        List.length_drop]
      omega
    · rw [wfKids_iff]
      intro c hc
      rcases List.mem_or_eq_of_mem_set hc with hc' | rfl
      · rcases List.mem_or_eq_of_mem_set hc' with hc'' | rfl
        · rcases List.mem_append.mp hc'' with hc3 | hc3
          · exact (wfKids_iff _ _).mp hkids c (List.mem_of_mem_take hc3)
          · exact (wfKids_iff _ _).mp hkids c (List.mem_of_mem_drop hc3)
        · rw [wfSub_def]
          refine ⟨hsp1, ?_⟩
          rw [hsp2]
          omega
      · rw [wfSub_def]
        refine ⟨hsp3, ?_⟩
        rw [hsp4]
    · exact hsp3
    · rw [hsp4]
    · intro s hs
      obtain rfl : index + 1 = s := by simpa using hs
      simp only [children_node, List.length_set, List.length_append,
        List.length_take, List.length_drop]
      omega

/-- One step of `find_and_insert_key` at a leaf. -/
theorem fai_leaf_step (fuel : Nat) (n : BTNode) (to_add : Nat)
    (hl : n.isLeaf = true) :
    find_and_insert_key (fuel+1) n to_add = insert_in_leaf n to_add := by
  simp only [find_and_insert_key, hl, if_true]

/-- One step of `find_and_insert_key` at an internal node whose selected
child is not full: descend in place. -/
theorem fai_nofull_step (fuel : Nat) (ks : List Nat) (cs : List BTNode)
    (to_add : Nat)
    (hnf : ¬ (cs.getD (findPositionKeys ks to_add) deadNode).count = 2*t) :
    find_and_insert_key (fuel+1) (.node false ks cs) to_add =
      (BTNode.node false ks cs).withChild (findPositionKeys ks to_add)
        (find_and_insert_key fuel
          (cs.getD (findPositionKeys ks to_add) deadNode) to_add) := by
  simp only [find_and_insert_key, isLeaf_node, find_position, keys_node,
    child_node]
  rw [if_neg (by simp : ¬ ((false : Bool) = true)), if_neg hnf]

/-- One step of `find_and_insert_key` at an internal node whose selected
child is full, when the split leaves the continuation object attached at
`slot`: split, then descend into that object. -/
theorem fai_full_step_some (fuel : Nat) (ks : List Nat) (cs : List BTNode)
    (to_add : Nat) (p2 tgt : BTNode) (s : Nat)
    (hfull : (cs.getD (findPositionKeys ks to_add) deadNode).count = 2*t)
    (hstep : split_node (.node false ks cs) (findPositionKeys ks to_add)
      to_add = (p2, tgt, some s)) :
    find_and_insert_key (fuel+1) (.node false ks cs) to_add =
      p2.withChild s (find_and_insert_key fuel tgt to_add) := by
  simp only [find_and_insert_key, isLeaf_node, find_position, keys_node,
    child_node]
  rw [if_neg (by simp : ¬ ((false : Bool) = true)), if_pos hfull, hstep]

/-- One step of `find_and_insert_key` at an internal node whose selected
child is full, when the split's pointer rewiring left the continuation
object unlinked: the recursive insertion mutates a leaked object and the
resulting tree is just the updated parent. -/
theorem fai_full_step_none (fuel : Nat) (ks : List Nat) (cs : List BTNode)
    (to_add : Nat) (p2 tgt : BTNode)
    (hfull : (cs.getD (findPositionKeys ks to_add) deadNode).count = 2*t)
    (hstep : split_node (.node false ks cs) (findPositionKeys ks to_add)
      to_add = (p2, tgt, none)) :
    find_and_insert_key (fuel+1) (.node false ks cs) to_add = p2 := by
  simp only [find_and_insert_key, isLeaf_node, find_position, keys_node,
    child_node]
  rw [if_neg (by simp : ¬ ((false : Bool) = true)), if_pos hfull, hstep]

/-- Master lemma for `find_and_insert_key`: on a structurally well-formed
node with enough fuel, insertion preserves structural well-formedness and
the leaf flag, and grows the node's key count by at most one. -/
theorem fai_master : ∀ (fuel : Nat) (n : BTNode) (to_add h : Nat),
    wfStruct h n = true → h ≤ fuel →
    wfStruct h (find_and_insert_key fuel n to_add) = true ∧
    (find_and_insert_key fuel n to_add).isLeaf = n.isLeaf ∧
    n.count ≤ (find_and_insert_key fuel n to_add).count ∧
    (find_and_insert_key fuel n to_add).count ≤ n.count + 1 := by
  intro fuel
  induction fuel with
  | zero =>
    intro n to_add h hw hf
    have := wfStruct_pos h n hw
    exact absurd hf (by omega)
  | succ fuel ih =>
    intro n to_add h hw hf
    have ht : t = 3 := rfl
    cases n with
    | node l ks cs =>
      cases l with
      | true =>
        obtain ⟨rfl, rfl⟩ := (wfStruct_leaf _ _ _).mp hw
        rw [fai_leaf_step fuel (.node true ks []) to_add rfl]
        have hfp := findPositionKeys_le ks to_add
        have hstep : insert_in_leaf (.node true ks []) to_add =
            .node true (ks.take (findPositionKeys ks to_add) ++
              to_add :: ks.drop (findPositionKeys ks to_add)) [] := by
          simp only [insert_in_leaf, find_position, keys_node, isLeaf_node,
            children_node]
        rw [hstep]
        refine ⟨(wfStruct_leaf _ _ _).mpr ⟨rfl, rfl⟩, rfl, ?_, ?_⟩
        · simp only [count_node, List.length_append, List.length_cons,
            List.length_take, List.length_drop]
          omega
        · simp only [count_node, List.length_append, List.length_cons,
            List.length_take, List.length_drop]
          omega
      | false =>
        obtain ⟨hlen, hh, hkids⟩ := (wfStruct_internal _ _ _).mp hw
        have hfp := findPositionKeys_le ks to_add
        have hidx : findPositionKeys ks to_add < cs.length := by omega
        by_cases hfull :
            (cs.getD (findPositionKeys ks to_add) deadNode).count = 2*t
        · obtain ⟨p2, tgt, slot, hstep, hp2l, hp2c, hp2len, hp2k, htgt,
            htgtc, hslot⟩ :=
            split_node_spec h ks cs (findPositionKeys ks to_add) to_add hh
              hlen hkids hidx hfull
          obtain ⟨ihw, ihl, ihc1, ihc2⟩ :=
            ih tgt to_add (h-1) htgt (by omega)
          have hsub : wfSub (h-1)
              (find_and_insert_key fuel tgt to_add) = true := by
            rw [wfSub_def]
            exact ⟨ihw, by omega⟩
          cases slot with
          | none =>
            rw [fai_full_step_none fuel ks cs to_add p2 tgt hfull hstep]
            refine ⟨wfStruct_of_parts h p2 hp2l hp2len hp2k hh, ?_, ?_, ?_⟩
            · rw [hp2l, isLeaf_node]
            · rw [hp2c, count_node]
              omega
            · rw [hp2c, count_node]
          | some s =>
            rw [fai_full_step_some fuel ks cs to_add p2 tgt s hfull hstep]
            obtain ⟨hwc, hcc, hlc⟩ :=
              wfStruct_withChild h p2 s
                (find_and_insert_key fuel tgt to_add) hp2l hp2len hp2k hh
                hsub
            refine ⟨hwc, ?_, ?_, ?_⟩
            · rw [hlc, isLeaf_node]
            · rw [hcc, hp2c, count_node]
              omega
            · rw [hcc, hp2c, count_node]
        · rw [fai_nofull_step fuel ks cs to_add hfull]
          have hsubc := wfSub_of_wfKids hkids hidx
          obtain ⟨hwsc, hcc0⟩ := (wfSub_def _ _).mp hsubc
          obtain ⟨ihw, ihl, ihc1, ihc2⟩ :=
            ih (cs.getD (findPositionKeys ks to_add) deadNode) to_add (h-1)
              hwsc (by omega)
          have hsub : wfSub (h-1) (find_and_insert_key fuel
              (cs.getD (findPositionKeys ks to_add) deadNode) to_add)
              = true := by
            rw [wfSub_def]
            exact ⟨ihw, by omega⟩
          obtain ⟨hwc, hccount, hleafc⟩ :=
            wfStruct_withChild h (.node false ks cs)
              (findPositionKeys ks to_add) _ (by rw [isLeaf_node])
              (by simp only [children_node, count_node]; omega)
              (by simpa only [children_node] using hkids) hh hsub
          refine ⟨hwc, ?_, ?_, ?_⟩
          · rw [hleafc, isLeaf_node]
          · rw [hccount]
          · rw [hccount]
            omega

/-- `add_key` on a non-full root just runs the recursive insertion. -/
theorem add_key_nofull_step (n : BTNode) (k : Nat) (hc : ¬ n.count = 2*t) :
    add_key n k = find_and_insert_key (height n + 1) n k := by
  simp only [add_key]
  rw [if_neg hc]

/-- `add_key` on a full root: a fresh root is put above the old one, the old
root is split, and insertion continues in the attached continuation object. -/
theorem add_key_full_step_some (n : BTNode) (k : Nat) (p2 tgt : BTNode)
    (s : Nat) (hc : n.count = 2*t)
    (hstep : split_node (.node false [] [n]) 0 k = (p2, tgt, some s)) :
    add_key n k = p2.withChild s (find_and_insert_key (height n + 1) tgt k) := by
  simp only [add_key]
  rw [if_pos hc, hstep]

/-- `add_key` on a full root when the split's rewiring leaves the
continuation object unlinked: the result is just the new two-level parent. -/
theorem add_key_full_step_none (n : BTNode) (k : Nat) (p2 tgt : BTNode)
    (hc : n.count = 2*t)
    (hstep : split_node (.node false [] [n]) 0 k = (p2, tgt, none)) :
    add_key n k = p2 := by
  simp only [add_key]
  rw [if_pos hc, hstep]

/-- `add_key` preserves root well-formedness, at the same height or (after a
root split) one level higher. -/
theorem add_key_wf (h : Nat) (n : BTNode) (k : Nat)
    (hw : wfRoot h n = true) :
    wfRoot h (add_key n k) = true ∨ wfRoot (h+1) (add_key n k) = true := by
  obtain ⟨hws, hwr⟩ := (wfRoot_def _ _).mp hw
  have hht : height n = h := height_of_wfStruct h n hws
  have h1 : 1 ≤ h := wfStruct_pos h n hws
  have ht : t = 3 := rfl
  by_cases hc : n.count = 2*t
  · have hkids : wfKids ((h+1)-1) [n] = true := by
      refine wfKids_of_forall ?_
      intro c hcm
      rw [List.mem_singleton] at hcm
      subst hcm
      rw [wfSub_def]
      exact ⟨hws, by omega⟩
    obtain ⟨p2, tgt, slot, hstep, hp2l, hp2c, hp2len, hp2k, htgt, htgtc,
      hslot⟩ :=
      split_node_spec (h+1) [] [n] 0 k (by omega) (by simp) hkids (by simp)
        hc
    obtain ⟨ihw, ihl, ihc1, ihc2⟩ :=
      fai_master (height n + 1) tgt k h htgt (by omega)
    have hsub : wfSub h (find_and_insert_key (height n + 1) tgt k)
        = true := by
      rw [wfSub_def]
      exact ⟨ihw, by omega⟩
    cases slot with
    | none =>
      right
      rw [add_key_full_step_none n k p2 tgt hc hstep, wfRoot_def]
      refine ⟨wfStruct_of_parts (h+1) p2 hp2l hp2len hp2k (by omega),
        Or.inr ?_⟩
      rw [hp2c]
      omega
    | some s =>
      right
      obtain ⟨hwc, hcc, hlc⟩ :=
        wfStruct_withChild (h+1) p2 s
          (find_and_insert_key (height n + 1) tgt k) hp2l hp2len hp2k
          (by omega) hsub
      rw [add_key_full_step_some n k p2 tgt s hc hstep, wfRoot_def]
      refine ⟨hwc, Or.inr ?_⟩
      rw [hcc, hp2c]
      omega
  · left
    rw [add_key_nofull_step n k hc]
    obtain ⟨ihw, ihl, ihc1, ihc2⟩ :=
      fai_master (height n + 1) n k h hws (by omega)
    rw [wfRoot_def]
    refine ⟨ihw, ?_⟩
    rcases hwr with hl | hcnt
    · exact Or.inl (by rw [ihl]; exact hl)
    · exact Or.inr (by omega)

/-- Every reachable tree is a well-formed root at some height. -/
theorem reachable_wf {tr : BTNode} (hr : Reachable tr) :
    ∃ h, wfRoot h tr = true := by
  induction hr with
  | create => exact ⟨1, by decide⟩
  | insert k hpr ihp =>
    obtain ⟨h, hw⟩ := ihp
    rcases add_key_wf h _ k hw with h1 | h1
    · exact ⟨h, h1⟩
    · exact ⟨h+1, h1⟩
  | delete k hpr ihp =>
    obtain ⟨h, hw⟩ := ihp
    rcases delete_key_wf h _ k hw with h1 | h1
    · exact ⟨h, h1⟩
    · exact ⟨h-1, h1⟩

/-- Every key strictly before the found position is `≤` the new key. -/
theorem findPositionKeys_before (ks : List Nat) (k : Nat) :
    ∀ j, j < findPositionKeys ks k → ks.getD j 0 ≤ k := by
  induction ks with
  | nil =>
    intro j hj
    simp [findPositionKeys] at hj
  | cons a l ihl =>
    intro j hj
    simp only [findPositionKeys] at hj
    by_cases hka : k < a
    · rw [if_pos hka] at hj
      exact absurd hj (by omega)
    · rw [if_neg hka] at hj
      cases j with
      | zero =>
        simp only [List.getD_cons_zero]
        omega
      | succ j2 =>
        simp only [List.getD_cons_succ]
        exact ihl j2 (by omega)

/-- The key at the found position (when inside the list) is strictly
greater than the new key. -/
theorem findPositionKeys_at (ks : List Nat) (k : Nat)
    (hlt : findPositionKeys ks k < ks.length) :
    k < ks.getD (findPositionKeys ks k) 0 := by
  induction ks with
  | nil => simp at hlt
  | cons a l ihl =>
    simp only [findPositionKeys] at hlt ⊢
    by_cases hka : k < a
    · rw [if_pos hka] at hlt ⊢
      simpa only [List.getD_cons_zero] using hka
    · rw [if_neg hka] at hlt ⊢
      simp only [List.length_cons] at hlt
      simp only [List.getD_cons_succ]
      exact ihl (by omega)

/-- C7: `insert_in_leaf` places the new key at the first position whose
existing key is strictly greater, shifting the rest right by one: every key
strictly before `find_position` is `≤ k` (so a duplicate lands immediately
before the first equal-or-greater key), the key at the position (when one
exists) is `> k`, the position never exceeds the key count, and the
resulting key list is exactly `take p ++ k :: drop p`. -/
theorem insert_in_leaf_first_greater (leaf : BTNode) (k p : Nat)
    (hp : find_position leaf k = p) :
    p ≤ leaf.keys.length ∧
    (∀ j, j < p → leaf.keys.getD j 0 ≤ k) ∧
    (p < leaf.keys.length → k < leaf.keys.getD p 0) ∧
    (insert_in_leaf leaf k).keys =
      leaf.keys.take p ++ k :: leaf.keys.drop p := by
  subst hp
  refine ⟨findPositionKeys_le leaf.keys k,
    fun j hj => findPositionKeys_before leaf.keys k j hj,
    fun hlt => findPositionKeys_at leaf.keys k hlt, ?_⟩
  simp only [insert_in_leaf, find_position, keys_node]

theorem insert_in_leaf_first_greater_witness :
    find_position (BTNode.node true [1, 3, 3, 5] []) 3 = 3 ∧
    (3 ≤ (BTNode.node true [1, 3, 3, 5] []).keys.length ∧
     (∀ j, j < 3 → (BTNode.node true [1, 3, 3, 5] []).keys.getD j 0 ≤ 3) ∧
     (3 < (BTNode.node true [1, 3, 3, 5] []).keys.length →
       3 < (BTNode.node true [1, 3, 3, 5] []).keys.getD 3 0) ∧
     (insert_in_leaf (.node true [1, 3, 3, 5] []) 3).keys =
       (BTNode.node true [1, 3, 3, 5] []).keys.take 3 ++
         3 :: (BTNode.node true [1, 3, 3, 5] []).keys.drop 3) :=
  ⟨by decide, insert_in_leaf_first_greater (.node true [1, 3, 3, 5] []) 3 3
    (by decide)⟩

/-- C6 (amended): on a well-formed reachable tree, deleting an absent key
returns false and preserves the in-order key sequence — but, as the
counterexample theorem shows, it may still restructure the tree and change
search outcomes, so the claim's stronger "leaves the tree unchanged" fails. -/
theorem delete_absent_noop_amended (tr : BTNode) (k : Nat)
    (hr : Reachable tr) (habs : k ∉ inorder tr) :
    (delete_key tr k).1 = false ∧
    inorder (delete_key tr k).2 = inorder tr := by
  obtain ⟨h, hw⟩ := reachable_wf hr
  exact delete_key_absent h tr k hw habs

theorem delete_absent_noop_amended_witness :
    (47 ∉ inorder exTree1) ∧
    ((delete_key exTree1 47).1 = false ∧
      inorder (delete_key exTree1 47).2 = inorder exTree1) :=
  ⟨by decide,
    delete_absent_noop_amended exTree1 47
      (Reachable.insert 45
        (reachable_runOps Reachable.create
          (insList [10, 20, 30, 40, 50, 60])))
      (by decide)⟩

/-- C9: the tree-handle rewrite (`*ref_head = parent->children[0]` after a
`consolidate` that empties a parent) happens only for the root.  Every
recursive `remove_key` call is made on a child first refilled to `≥ t` keys,
and a node entered with `≥ t` keys never produces a handle write (first
conjunct); when the root itself does produce one, the installed node is the
root's merged sole child — a well-formed tree one level lower holding the
entire remaining key sequence, so no still-referenced node is discarded
(second conjunct). -/
theorem handle_write_only_root_collapse (fuel h : Nat) (n : BTNode)
    (k : Nat) (hw : wfRoot h n = true) (hf : h ≤ fuel) :
    (t ≤ n.count → (remove_key fuel n k).2.2 = none) ∧
    (∀ x, (remove_key fuel n k).2.2 = some x →
      wfRoot (h-1) x = true ∧
      inorder (remove_key fuel n k).2.1 = inorder x) := by
  obtain ⟨m1, m2, m3, m4, m5, m6, m7, m8⟩ :=
    remove_key_master fuel h n k hw hf
  exact ⟨m5, m7⟩

theorem handle_write_only_root_collapse_witness :
    (wfRoot 1 (BTNode.node true [1, 2, 3] []) = true ∧ (1:Nat) ≤ 1) ∧
    ((t ≤ (BTNode.node true [1, 2, 3] []).count →
        (remove_key 1 (.node true [1, 2, 3] []) 2).2.2 = none) ∧
      (∀ x, (remove_key 1 (.node true [1, 2, 3] []) 2).2.2 = some x →
        wfRoot 0 x = true ∧
        inorder (remove_key 1 (.node true [1, 2, 3] []) 2).2.1 =
          inorder x)) :=
  ⟨⟨by decide, by decide⟩,
    handle_write_only_root_collapse 1 1 (.node true [1, 2, 3] []) 2
      (by decide) (by decide)⟩

/-- C10: every tree reachable from `create_b_tree` by inserts and deletes
has all leaves at the same depth: splits keep sibling subtrees at equal
height, the root split adds one level above everything, and the root
collapse removes exactly one level. -/
theorem reachable_uniform_depth (tr : BTNode) (hr : Reachable tr) :
    uniformDepth tr = true := by
  obtain ⟨h, hw⟩ := reachable_wf hr
  have hws := ((wfRoot_def _ _).mp hw).1
  have hht := height_of_wfStruct h tr hws
  rw [uniformDepth, hht]
  exact depthOk_of_wfStruct h tr hws

theorem reachable_uniform_depth_witness : uniformDepth exTree1 = true :=
  reachable_uniform_depth exTree1
    (Reachable.insert 45
      (reachable_runOps Reachable.create (insList [10, 20, 30, 40, 50, 60])))
